import Mathlib

/-!
# AnagramFinder: the signature trie of `src/anagram.c`

A shallow embedding of the index of `anagram.c` and of the loader and query
code around it.

* A `char` is modelled by its integer value, an `Int`. The `ctype.h` functions are those
  of the "C" locale (the program never calls `setlocale`).
* A `char *` argument is modelled by the list of characters found from the
  pointer on. The string it denotes ends at the first NUL, or at the end of
  the list (a NUL is understood to follow the list): see `cstr`.
* A `struct word` is modelled by its `word` array (`MAX_STR` characters); the
  `next` chain is a Lean list of such arrays.
* A `struct trie *` is `trie.NULL` or a node with its bucket and its
  `ALPHA_SIZE` child pointers.
* A `FILE` open for reading is the list of characters not read yet and the
  end-of-file indicator; `fopen` is assumed to succeed. The array `buf` of
  `load_dictionary` is not initialised: its first content is a parameter.
* `malloc` is assumed to succeed (the `die` branches are not modelled).
* Undefined behaviour of the C code (an index outside `child`, a `%s` that
  runs off a `word` array) is the result `none`.
-/

set_option maxRecDepth 100000

namespace Anagram

/-! ## Characters and strings -/

/-- Source line 7: `#define MAX_STR 128`. -/
def MAX_STR : Nat := 128

/-- Source line 8: `#define ALPHA_SIZE 26`. -/
abbrev ALPHA_SIZE : Nat := 26

/-- The `isalpha` of `ctype.h` in the "C" locale: `A`..`Z` and `a`..`z`. -/
def isalpha (c : Int) : Bool :=
  (decide (65 ≤ c) && decide (c ≤ 90)) || (decide (97 ≤ c) && decide (c ≤ 122))

/-- The `tolower` of `ctype.h` in the "C" locale. -/
def tolower (c : Int) : Int :=
  if 65 ≤ c ∧ c ≤ 90 then c + 32 else c

/-- The C string that starts a character sequence: what precedes the first NUL. -/
def cstr (s : List Int) : List Int :=
  s.takeWhile (fun c => c != 0)

/-- A string literal of the source, as characters. -/
def lit (s : String) : List Int :=
  s.toList.map (fun c => Int.ofNat c.toNat)

/-- The `strncpy` of `string.h` into the array `dst`: at most `n` characters of
the string `src`, the rest of the first `n` cells filled with NUL. -/
def strncpy (dst src : List Int) (n : Nat) : List Int :=
  (cstr src).take n ++ List.replicate (n - ((cstr src).take n).length) 0 ++ dst.drop n

/-- Source lines 173-177: `cmp`, the difference of the two characters. -/
def cmp (a b : Int) : Int :=
  a - b

/-- The order `qsort` is given by `cmp`: `a` may precede `b` when `cmp a b ≤ 0`. -/
def cmp_le (a b : Int) : Prop :=
  cmp a b ≤ 0

instance cmp_le_decidable : DecidableRel cmp_le :=
  fun a b => inferInstanceAs (Decidable (cmp a b ≤ 0))

/-- Source lines 179-187: `lowerstrncpy`; the result is the string left in `dst`.
`while (--max && *src) *dst++ = tolower(*src++); *dst = 0`. -/
def lowerstrncpy : List Int → Int → List Int
  | [], _ => []
  | c :: src, max =>
    if max - 1 ≠ 0 ∧ c ≠ 0 then tolower c :: lowerstrncpy src (max - 1) else []

/-- Source lines 189-193: `sort`, that is `qsort(s, strlen(s), 1, cmp)`; the
result is the string left in `s`. Since `cmp a b = 0` only for `a = b`, the
sorted arrangement is unique (`sort_unique`), whatever algorithm `qsort` runs. -/
def sort (s : List Int) : List Int :=
  (cstr s).insertionSort cmp_le

/-! ## Word records and the trie -/

/-- The `word` array of a `struct word` (source lines 10-13). -/
abbrev word := List Int

/-- Source lines 88-99: `word_new`; the `word` array of the new record, that is
`MAX_STR` zero bytes overwritten by `strncpy(w->word, str, MAX_STR)`. -/
def word_new (str : List Int) : word :=
  strncpy (List.replicate MAX_STR 0) str MAX_STR

/-- Source lines 15-18: a `struct trie *`, either `NULL` or a node holding the
list `words` and the array `child`. -/
inductive trie where
  | NULL : trie
  | node (words : List word) (child : Fin ALPHA_SIZE → trie) : trie

/-- The field `t->words` (no record behind `NULL`). -/
def trie.words : trie → List word
  | .NULL => []
  | .node ws _ => ws

/-- The field `t->child` (no child behind `NULL`). -/
def trie.child : trie → Fin ALPHA_SIZE → trie
  | .NULL => fun _ => .NULL
  | .node _ ch => ch

/-- The test `if (t)`. -/
def trie.present : trie → Bool
  | .NULL => false
  | .node _ _ => true

/-- Source lines 101-111: `trie_new`, a zeroed node. -/
def trie_new : trie :=
  .node [] (fun _ => .NULL)

/-- Source lines 113-125: `word_insert`, the new record goes to the front. -/
def word_insert (root : List word) (s : List Int) : List word :=
  word_new s :: root

/-- The access `child[code]`: the slot, or `none` when `code` is outside the array. -/
def child_index (code : Int) : Option (Fin ALPHA_SIZE) :=
  if h : 0 ≤ code ∧ code < 26 then some ⟨code.toNat, by show code.toNat < 26; omega⟩ else none

/-- Source lines 136-142: `if (!t) { t = trie_new(); *pt = t; }`. -/
def trie_alloc : trie → trie
  | .NULL => trie_new
  | .node ws ch => .node ws ch

/-- Source lines 127-151: `trie_insert(pt, p, s)`; the result is the new `*pt`.
An iteration of the loop `while (*p && !isalpha(*p)) p++` is a call on the same
node with the rest of the key. -/
def trie_insert : trie → List Int → List Int → Option trie
  | pt, [], s =>
    some (.node (word_insert (trie_alloc pt).words s) (trie_alloc pt).child)
  | pt, c :: p, s =>
    if c ≠ 0 ∧ isalpha c = false then trie_insert pt p s
    else if c ≠ 0 then
      match child_index (c - 97) with
      | none => none
      | some code =>
        (trie_insert ((trie_alloc pt).child code) p s).map
          (fun t => .node (trie_alloc pt).words (Function.update (trie_alloc pt).child code t))
    else some (.node (word_insert (trie_alloc pt).words s) (trie_alloc pt).child)

/-- Source lines 153-171: `trie_find(t, p)`. An iteration of the loop
`while (*p && !isalpha(*p)) p++` is a call on the same node with the rest of
the key. -/
def trie_find : trie → List Int → Option trie
  | t, [] => some t
  | .NULL, _ :: _ => some .NULL
  | .node ws ch, c :: p =>
    if c ≠ 0 ∧ isalpha c = false then trie_find (.node ws ch) p
    else if c ≠ 0 then
      match child_index (c - 97) with
      | none => none
      | some code => trie_find (ch code) p
    else some (.node ws ch)

/-! ## Loader and query -/

/-- Source lines 210-214: the body of the read loop of `load_dictionary` on the
buffer `buf`; the result is the new `state.trie`. -/
def load_line (st : trie) (buf : List Int) : Option trie :=
  trie_insert st (sort (lowerstrncpy buf MAX_STR)) buf

/-- The loop body of `load_dictionary` run on the successive contents of `buf`. -/
def load_lines : trie → List (List Int) → Option trie
  | st, [] => some st
  | st, buf :: rest =>
    match load_line st buf with
    | none => none
    | some st1 => load_lines st1 rest

/-- The conversion `%s` of `fprintf` on a `word` array: the string in it, or
`none` when the array holds no NUL. -/
def fprintf_s (a : word) : Option (List Int) :=
  if (0 : Int) ∈ a then some (cstr a) else none

/-- Source lines 236-239: the loop `while (w) { fprintf(stdout, "\t%s\n", w->word); w = w->next; }`. -/
def print_words : List word → Option (List Int)
  | [] => some []
  | w :: next =>
    match fprintf_s w, print_words next with
    | some a, some b => some (lit "\t" ++ a ++ lit "\n" ++ b)
    | _, _ => none

/-- Source lines 220-241: `print_anagrams(word)` on the index `st`; the result
is what is written to `stdout`. -/
def print_anagrams (st : trie) (w : List Int) : Option (List Int) :=
  match trie_find st (sort (lowerstrncpy w MAX_STR)) with
  | none => none
  | some t =>
    match t with
    | .NULL => some (lit "Anagrams of " ++ cstr w ++ lit ":\n")
    | .node ws _ => (print_words ws).map (fun b => lit "Anagrams of " ++ cstr w ++ lit ":\n" ++ b)

/-! ## The walk of a key, and the signature of the specification -/

/-- The letters at which the walk of `trie_insert` and `trie_find` computes
`code = *p - 97` on the key `p`: it skips what is not alphabetic and stops at
the end of the string. -/
def trie_path : List Int → List Int
  | [] => []
  | c :: p =>
    if c ≠ 0 ∧ isalpha c = false then trie_path p
    else if c ≠ 0 then c :: trie_path p
    else []

/-- The slot of `child` that a lowercase letter selects. -/
def letter_index (c : Int) : Fin ALPHA_SIZE :=
  ⟨(c - 97).toNat % 26, Nat.mod_lt _ (by decide)⟩

/-- The node reached from `t` along the child indices `cs` (`NULL` when a child
is missing on the way). -/
def node_at : trie → List (Fin ALPHA_SIZE) → trie
  | t, [] => t
  | t, i :: cs => node_at (t.child i) cs

/-- The specification's insertion (spec 4.1): walk from the root along `cs`,
creating each missing node, and prepend `w` to the bucket of the last node. -/
def insert_at : trie → List (Fin ALPHA_SIZE) → word → trie
  | pt, [], w => .node (w :: (trie_alloc pt).words) (trie_alloc pt).child
  | pt, i :: cs, w =>
    .node (trie_alloc pt).words
      (Function.update (trie_alloc pt).child i (insert_at ((trie_alloc pt).child i) cs w))

/-- The alphabetic characters of a string, case-folded, in their order of occurrence. -/
def letters (s : List Int) : List Int :=
  ((cstr s).filter isalpha).map tolower

/-- The signature of the specification (spec 3): the alphabetic characters of
the word, case-folded to lowercase, sorted ascending by code point. -/
def signature (s : List Int) : List Int :=
  (letters s).insertionSort (fun a b => a ≤ b)

/-- The child indices selected by the key that the loader and the query compute for `s`. -/
def key_codes (s : List Int) : List (Fin ALPHA_SIZE) :=
  (trie_path (sort (lowerstrncpy s MAX_STR))).map letter_index

instance cmp_le_total : IsTotal Int cmp_le :=
  ⟨fun a b => by unfold cmp_le cmp; omega⟩

instance cmp_le_trans : IsTrans Int cmp_le :=
  ⟨fun a b c => by unfold cmp_le cmp; omega⟩

instance cmp_le_antisymm : IsAntisymm Int cmp_le :=
  ⟨fun a b => by unfold cmp_le cmp; omega⟩

/-! ## Sequences of insertions, the read loop, teardown -/

/-- A sequence of calls `trie_insert(&t, p, s)`, one per pair `(p, s)`, in order. -/
def trie_inserts : trie → List (List Int × List Int) → Option trie
  | t, [] => some t
  | t, ps :: rest =>
    match trie_insert t ps.1 ps.2 with
    | none => none
    | some t1 => trie_inserts t1 rest

/-- A `FILE` open for reading: the characters not read yet and the end-of-file
indicator that `feof` tests. -/
structure FILE where
  rest : List Int
  eof : Bool

/-- The characters one `fgets` stores when it may store `k` of them: it stops
after a newline, at the end of the file, or after `k` characters. -/
def fgets_chars : Nat → List Int → List Int
  | 0, _ => []
  | _ + 1, [] => []
  | k + 1, c :: rest => if c = 10 then [c] else c :: fgets_chars k rest

/-- Whether that `fgets` runs into the end of the file. -/
def fgets_eof : Nat → List Int → Bool
  | 0, _ => false
  | _ + 1, [] => true
  | k + 1, c :: rest => if c = 10 then false else fgets_eof k rest

/-- The `fgets(buf, n, f)` of `stdio.h`: the new content of `buf` and the new
state of `f`. When the end of the file is met before any character is read,
`fgets` returns `NULL` and leaves `buf` as it was. -/
def fgets (buf : List Int) (n : Nat) (f : FILE) : List Int × FILE :=
  if fgets_chars (n - 1) f.rest = [] ∧ fgets_eof (n - 1) f.rest = true then
    (buf, { rest := f.rest, eof := true })
  else
    (fgets_chars (n - 1) f.rest,
      { rest := f.rest.drop (fgets_chars (n - 1) f.rest).length,
        eof := f.eof || fgets_eof (n - 1) f.rest })

/-- Source lines 207-215: the loop `while (!feof(f)) { fgets(buf, MAX_STR, f); ... }`
of `load_dictionary`, from the stream `f`, the buffer content `buf` and the
index `st`; the result is the final `state.trie`. The value `fgets` returns is
not looked at. -/
def load_loop (f : FILE) (buf : List Int) (st : trie) : Option trie :=
  if f.eof = true then some st
  else
    match load_line st (fgets buf MAX_STR f).1 with
    | none => none
    | some st1 => load_loop (fgets buf MAX_STR f).2 (fgets buf MAX_STR f).1 st1
termination_by (if f.eof = true then 0 else f.rest.length + 1)
decreasing_by
  rename_i h
  rw [if_neg h]
  have hk : MAX_STR - 1 = 126 + 1 := rfl
  unfold fgets
  rw [hk]
  cases f.rest with
  | nil => simp [fgets_chars, fgets_eof]
  | cons c rest =>
    by_cases hc : c = 10
    · simp [fgets_chars, fgets_eof, hc]
      split <;> omega
    · simp [fgets_chars, fgets_eof, hc]
      split <;> omega

/-- Source lines 195-218: `load_dictionary` on a file that `fopen` opens, with
the content `file`; `buf0` is what the array `buf`, which is not initialised,
holds on entry. -/
def load_dictionary (file buf0 : List Int) (st : trie) : Option trie :=
  load_loop { rest := file, eof := false } buf0 st

/-- The records `trie_free` releases (source lines 39-51): those of the
children, slot by slot, then those of the node. -/
def trie_free : trie → List word
  | .NULL => []
  | .node ws ch => ((List.finRange ALPHA_SIZE).map (fun i => trie_free (ch i))).flatten ++ ws

/-- The depth the recursion of `trie_free` reaches on `t`, the call on `t` counted. -/
def trie_free_depth : trie → Nat
  | .NULL => 1
  | .node _ ch => 1 + ((List.finRange ALPHA_SIZE).map (fun i => trie_free_depth (ch i))).foldr max 0

/-- The number of calls of `trie_insert` that `trie_insert(pt, p, s)` makes, itself counted. -/
def trie_insert_calls : trie → List Int → Nat
  | _, [] => 1
  | pt, c :: p =>
    if c ≠ 0 ∧ isalpha c = false then trie_insert_calls pt p
    else if c ≠ 0 then
      match child_index (c - 97) with
      | none => 1
      | some code => 1 + trie_insert_calls ((trie_alloc pt).child code) p
    else 1

/-- The number of calls of `trie_find` that `trie_find(t, p)` makes, itself counted. -/
def trie_find_calls : trie → List Int → Nat
  | _, [] => 1
  | .NULL, _ :: _ => 1
  | .node ws ch, c :: p =>
    if c ≠ 0 ∧ isalpha c = false then trie_find_calls (.node ws ch) p
    else if c ≠ 0 then
      match child_index (c - 97) with
      | none => 1
      | some code => 1 + trie_find_calls (ch code) p
    else 1

/-! ## Characters -/

theorem isalpha_tolower (c : Int) : isalpha (tolower c) = isalpha c := by
  unfold isalpha tolower
  by_cases h : 65 ≤ c ∧ c ≤ 90
  · have h1 : 97 ≤ c + 32 := by omega
    have h2 : c + 32 ≤ 122 := by omega
    simp [h, h1, h2]
  · simp [h]

theorem tolower_ne_zero {c : Int} (h : c ≠ 0) : tolower c ≠ 0 := by
  unfold tolower
  split <;> omega

theorem tolower_lower {c : Int} (h : isalpha c = true) :
    97 ≤ tolower c ∧ tolower c ≤ 122 := by
  unfold isalpha at h
  unfold tolower
  simp only [Bool.or_eq_true, Bool.and_eq_true, decide_eq_true_eq] at h
  split <;> omega

theorem cmp_le_iff (a b : Int) : cmp_le a b ↔ a ≤ b := by
  unfold cmp_le cmp; omega

/-- The comparator `cmp` separates distinct characters, so the sorted
arrangement `qsort` produces is the only one. -/
theorem sort_unique {l l1 : List Int} (hp : l1.Perm l) (hs : l1.Sorted cmp_le) :
    l1 = l.insertionSort cmp_le :=
  List.eq_of_perm_of_sorted (hp.trans (List.perm_insertionSort cmp_le l).symm) hs
    (List.sorted_insertionSort cmp_le l)

/-! ## C strings -/

theorem cstr_nil : cstr [] = [] := rfl

theorem cstr_cons_zero (s : List Int) : cstr (0 :: s) = [] := by
  simp [cstr]

theorem cstr_cons_ne {c : Int} (h : c ≠ 0) (s : List Int) :
    cstr (c :: s) = c :: cstr s := by
  simp [cstr, h]

theorem zero_not_mem_cstr (s : List Int) : (0 : Int) ∉ cstr s := by
  intro h
  have := List.mem_takeWhile_imp h
  simp at this

theorem cstr_eq_self {s : List Int} (h : (0 : Int) ∉ s) : cstr s = s := by
  unfold cstr
  rw [List.takeWhile_eq_self_iff]
  intro c hc
  have : c ≠ 0 := fun h0 => h (h0 ▸ hc)
  simpa using this

theorem cstr_cstr (s : List Int) : cstr (cstr s) = cstr s :=
  cstr_eq_self (zero_not_mem_cstr s)

theorem zero_not_mem_take_cstr (s : List Int) (n : Nat) : (0 : Int) ∉ (cstr s).take n :=
  fun h => zero_not_mem_cstr s (List.mem_of_mem_take h)

theorem cstr_take_cstr (s : List Int) (n : Nat) :
    cstr ((cstr s).take n) = (cstr s).take n :=
  cstr_eq_self (zero_not_mem_take_cstr s n)

/-! ## The key computation: `lowerstrncpy` then `sort` -/

theorem lowerstrncpy_succ (s : List Int) (n : Nat) :
    lowerstrncpy s (n + 1 : Int) = ((cstr s).take n).map tolower := by
  induction s generalizing n with
  | nil => simp [lowerstrncpy, cstr]
  | cons c src ih =>
    cases n with
    | zero => simp [lowerstrncpy]
    | succ m =>
      by_cases hc : c = 0
      · subst hc
        simp [lowerstrncpy, cstr_cons_zero]
      · have h1 : ((m + 1 : Nat) : Int) + 1 - 1 ≠ 0 := by omega
        have h2 : ((m + 1 : Nat) : Int) + 1 - 1 = (m : Int) + 1 := by omega
        rw [lowerstrncpy, if_pos ⟨h1, hc⟩, h2, ih m, cstr_cons_ne hc]
        simp

theorem lowerstrncpy_MAX_STR (s : List Int) :
    lowerstrncpy s MAX_STR = ((cstr s).take (MAX_STR - 1)).map tolower :=
  lowerstrncpy_succ s 127

theorem zero_not_mem_map_tolower {l : List Int} (h : (0 : Int) ∉ l) :
    (0 : Int) ∉ l.map tolower := by
  intro hm
  obtain ⟨c, hc, h0⟩ := List.mem_map.1 hm
  exact tolower_ne_zero (fun hc0 => h (hc0 ▸ hc)) h0

theorem sort_of_no_zero {k : List Int} (h : (0 : Int) ∉ k) :
    sort k = k.insertionSort cmp_le := by
  unfold sort
  rw [cstr_eq_self h]

theorem insertionSort_cmp_le (l : List Int) :
    l.insertionSort cmp_le = l.insertionSort (fun a b => a ≤ b) := by
  apply List.eq_of_perm_of_sorted (r := fun a b : Int => a ≤ b)
  · exact (List.perm_insertionSort _ l).trans (List.perm_insertionSort _ l).symm
  · exact (List.sorted_insertionSort cmp_le l).imp (fun {a b} h => (cmp_le_iff a b).1 h)
  · exact List.sorted_insertionSort _ l

theorem filter_insertionSort (f : Int → Bool) (l : List Int) :
    (l.insertionSort (fun a b => a ≤ b)).filter f
      = (l.filter f).insertionSort (fun a b => a ≤ b) := by
  apply List.eq_of_perm_of_sorted (r := fun a b : Int => a ≤ b)
  · exact ((List.perm_insertionSort _ l).filter f).trans
      (List.perm_insertionSort _ (l.filter f)).symm
  · exact (List.sorted_insertionSort _ l).filter f
  · exact List.sorted_insertionSort _ _

theorem trie_path_of_no_zero {p : List Int} (h : (0 : Int) ∉ p) :
    trie_path p = p.filter isalpha := by
  induction p with
  | nil => rfl
  | cons c p ih =>
    have hc : c ≠ 0 := fun h0 => h (h0 ▸ List.mem_cons_self _ _)
    have hp : (0 : Int) ∉ p := fun h0 => h (List.mem_cons_of_mem _ h0)
    by_cases ha : isalpha c = true
    · simp [trie_path, hc, ha, ih hp]
    · simp only [Bool.not_eq_true] at ha
      simp [trie_path, hc, ha, ih hp]

theorem filter_isalpha_map_tolower (l : List Int) :
    (l.map tolower).filter isalpha = (l.filter isalpha).map tolower := by
  induction l with
  | nil => rfl
  | cons c l ih =>
    by_cases ha : isalpha c = true
    · simp [List.filter_cons, isalpha_tolower, ha, ih]
    · simp only [Bool.not_eq_true] at ha
      simp [List.filter_cons, isalpha_tolower, ha, ih]

/-- The letters the walk consumes from the key of `s` are the signature of the
first `MAX_STR - 1` characters of `s`. -/
theorem trie_path_key (s : List Int) :
    trie_path (sort (lowerstrncpy s MAX_STR)) = signature ((cstr s).take (MAX_STR - 1)) := by
  have hz : (0 : Int) ∉ ((cstr s).take (MAX_STR - 1)).map tolower :=
    zero_not_mem_map_tolower (zero_not_mem_take_cstr s _)
  have hz2 : (0 : Int) ∉ (((cstr s).take (MAX_STR - 1)).map tolower).insertionSort cmp_le :=
    fun h => hz ((List.perm_insertionSort _ _).mem_iff.1 h)
  rw [lowerstrncpy_MAX_STR, sort_of_no_zero hz, trie_path_of_no_zero hz2, insertionSort_cmp_le,
    filter_insertionSort, filter_isalpha_map_tolower]
  unfold signature letters
  rw [cstr_take_cstr]

theorem take_of_fits {s : List Int} (h : (cstr s).length < MAX_STR) :
    (cstr s).take (MAX_STR - 1) = cstr s := by
  apply List.take_of_length_le
  unfold MAX_STR at *
  omega

theorem signature_cstr (s : List Int) : signature (cstr s) = signature s := by
  unfold signature letters
  rw [cstr_cstr]

theorem trie_path_key_of_fits {s : List Int} (h : (cstr s).length < MAX_STR) :
    trie_path (sort (lowerstrncpy s MAX_STR)) = signature s := by
  rw [trie_path_key, take_of_fits h, signature_cstr]

theorem letters_lower (s : List Int) : ∀ c ∈ letters s, 97 ≤ c ∧ c ≤ 122 := by
  intro c hc
  unfold letters at hc
  obtain ⟨a, ha, rfl⟩ := List.mem_map.1 hc
  exact tolower_lower (List.mem_filter.1 ha).2

theorem signature_perm (s : List Int) : (signature s).Perm (letters s) :=
  List.perm_insertionSort _ _

theorem signature_lower (s : List Int) : ∀ c ∈ signature s, 97 ≤ c ∧ c ≤ 122 :=
  fun c hc => letters_lower s c ((signature_perm s).mem_iff.1 hc)

theorem signature_eq_iff (s1 s2 : List Int) :
    signature s1 = signature s2 ↔ (letters s1).Perm (letters s2) := by
  constructor
  · intro h
    exact (signature_perm s1).symm.trans (h ▸ signature_perm s2)
  · intro h
    apply List.eq_of_perm_of_sorted (r := fun a b : Int => a ≤ b)
    · exact (signature_perm s1).trans (h.trans (signature_perm s2).symm)
    · exact List.sorted_insertionSort _ _
    · exact List.sorted_insertionSort _ _

/-! ## The trie walk -/

theorem trie_alloc_words (t : trie) : (trie_alloc t).words = t.words := by
  cases t <;> rfl

theorem trie_alloc_child (t : trie) : (trie_alloc t).child = t.child := by
  cases t <;> rfl

theorem child_index_of_lower {c : Int} (h : 97 ≤ c ∧ c ≤ 122) :
    child_index (c - 97) = some (letter_index c) := by
  unfold child_index letter_index
  have h1 : 0 ≤ c - 97 ∧ c - 97 < 26 := by omega
  rw [dif_pos h1]
  congr 1
  apply Fin.ext
  show (c - 97).toNat = (c - 97).toNat % 26
  omega

theorem letter_index_inj {a b : Int} (ha : 97 ≤ a ∧ a ≤ 122) (hb : 97 ≤ b ∧ b ≤ 122)
    (h : letter_index a = letter_index b) : a = b := by
  have h1 : (a - 97).toNat % 26 = (b - 97).toNat % 26 := congrArg Fin.val h
  omega

theorem map_letter_index_inj {l1 l2 : List Int} (h1 : ∀ c ∈ l1, 97 ≤ c ∧ c ≤ 122)
    (h2 : ∀ c ∈ l2, 97 ≤ c ∧ c ≤ 122) (h : l1.map letter_index = l2.map letter_index) :
    l1 = l2 := by
  induction l1 generalizing l2 with
  | nil =>
    cases l2 with
    | nil => rfl
    | cons b l2 => simp at h
  | cons a l1 ih =>
    cases l2 with
    | nil => simp at h
    | cons b l2 =>
      simp only [List.map_cons, List.cons.injEq] at h
      have hab := letter_index_inj (h1 a (List.mem_cons_self _ _)) (h2 b (List.mem_cons_self _ _)) h.1
      have hl := ih (fun c hc => h1 c (List.mem_cons_of_mem _ hc))
        (fun c hc => h2 c (List.mem_cons_of_mem _ hc)) h.2
      rw [hab, hl]

/-- On a key whose letters are lowercase, `trie_insert` is the specification's
insertion along the child indices of the letters of the key. -/
theorem trie_insert_eq (t : trie) (p s : List Int)
    (h : ∀ c ∈ trie_path p, 97 ≤ c ∧ c ≤ 122) :
    trie_insert t p s = some (insert_at t ((trie_path p).map letter_index) (word_new s)) := by
  induction p generalizing t with
  | nil => rfl
  | cons c p ih =>
    by_cases hskip : c ≠ 0 ∧ isalpha c = false
    · rw [trie_insert, if_pos hskip]
      have hp : trie_path (c :: p) = trie_path p := by rw [trie_path, if_pos hskip]
      rw [hp] at h ⊢
      exact ih t h
    · by_cases hc : c ≠ 0
      · have hp : trie_path (c :: p) = c :: trie_path p := by
          rw [trie_path, if_neg hskip, if_pos hc]
        rw [hp] at h
        rw [trie_insert, if_neg hskip, if_pos hc, hp,
          child_index_of_lower (h c (List.mem_cons_self _ _))]
        simp only [List.map_cons, insert_at]
        rw [ih _ (fun a ha => h a (List.mem_cons_of_mem _ ha))]
        rfl
      · have hp : trie_path (c :: p) = [] := by
          rw [trie_path, if_neg hskip, if_neg hc]
        rw [trie_insert, if_neg hskip, if_neg hc, hp]
        rfl

theorem node_at_NULL (cs : List (Fin ALPHA_SIZE)) : node_at .NULL cs = .NULL := by
  induction cs with
  | nil => rfl
  | cons i cs ih => exact ih

/-- On a key whose letters are lowercase, `trie_find` returns the node at the
child indices of the letters of the key. -/
theorem trie_find_eq (t : trie) (p : List Int)
    (h : ∀ c ∈ trie_path p, 97 ≤ c ∧ c ≤ 122) :
    trie_find t p = some (node_at t ((trie_path p).map letter_index)) := by
  induction p generalizing t with
  | nil => cases t <;> rfl
  | cons c p ih =>
    cases t with
    | NULL => rw [node_at_NULL]; rfl
    | node ws ch =>
      by_cases hskip : c ≠ 0 ∧ isalpha c = false
      · rw [trie_find, if_pos hskip]
        have hp : trie_path (c :: p) = trie_path p := by rw [trie_path, if_pos hskip]
        rw [hp] at h ⊢
        exact ih _ h
      · by_cases hc : c ≠ 0
        · have hp : trie_path (c :: p) = c :: trie_path p := by
            rw [trie_path, if_neg hskip, if_pos hc]
          rw [hp] at h
          rw [trie_find, if_neg hskip, if_pos hc, hp,
            child_index_of_lower (h c (List.mem_cons_self _ _))]
          simp only [List.map_cons, node_at]
          exact ih _ (fun a ha => h a (List.mem_cons_of_mem _ ha))
        · have hp : trie_path (c :: p) = [] := by
            rw [trie_path, if_neg hskip, if_neg hc]
          rw [trie_find, if_neg hskip, if_neg hc, hp]
          rfl

theorem insert_at_present (t : trie) (cs : List (Fin ALPHA_SIZE)) (w : word) :
    (insert_at t cs w).present = true := by
  cases cs <;> rfl

theorem child_node (ws : List word) (ch : Fin ALPHA_SIZE → trie) :
    (trie.node ws ch).child = ch := rfl

theorem words_node (ws : List word) (ch : Fin ALPHA_SIZE → trie) :
    (trie.node ws ch).words = ws := rfl

theorem node_at_insert_at_same (t : trie) (cs : List (Fin ALPHA_SIZE)) (w : word) :
    node_at (insert_at t cs w) cs = .node (w :: (node_at t cs).words) (node_at t cs).child := by
  induction cs generalizing t with
  | nil => simp only [insert_at, node_at, trie_alloc_words, trie_alloc_child]
  | cons i cs ih =>
    simp only [insert_at, node_at, child_node, Function.update_same]
    rw [ih, trie_alloc_child]

theorem node_at_insert_at_ne (t : trie) (cs cs1 : List (Fin ALPHA_SIZE)) (w : word)
    (h : cs ≠ cs1) : (node_at (insert_at t cs w) cs1).words = (node_at t cs1).words := by
  induction cs generalizing t cs1 with
  | nil =>
    cases cs1 with
    | nil => exact absurd rfl h
    | cons j r => simp only [insert_at, node_at, child_node, trie_alloc_child]
  | cons i cs ih =>
    cases cs1 with
    | nil => simp only [insert_at, node_at, words_node, trie_alloc_words]
    | cons j r =>
      simp only [insert_at, node_at, child_node]
      by_cases hij : j = i
      · subst hij
        rw [Function.update_same, ih _ _ (fun hcs => h (by rw [hcs])), trie_alloc_child]
      · rw [Function.update_noteq hij, trie_alloc_child]

/-! ## Word records -/

theorem cstr_append_zero {l : List Int} (h : (0 : Int) ∉ l) (r : List Int) :
    cstr (l ++ 0 :: r) = l := by
  induction l with
  | nil => exact cstr_cons_zero r
  | cons c l ih =>
    have hc : c ≠ 0 := fun h0 => h (h0 ▸ List.mem_cons_self _ _)
    rw [List.cons_append, cstr_cons_ne hc, ih (fun h0 => h (List.mem_cons_of_mem _ h0))]

theorem word_new_of_fits {s : List Int} (h : (cstr s).length < MAX_STR) :
    word_new s = cstr s ++ 0 :: List.replicate (MAX_STR - 1 - (cstr s).length) 0 := by
  unfold word_new strncpy
  have h1 : (cstr s).take MAX_STR = cstr s := List.take_of_length_le (Nat.le_of_lt h)
  have h2 : MAX_STR - (cstr s).length = (MAX_STR - 1 - (cstr s).length) + 1 := by
    unfold MAX_STR at *; omega
  rw [h1, h2, List.replicate_succ]
  simp

theorem zero_mem_word_new {s : List Int} (h : (cstr s).length < MAX_STR) :
    (0 : Int) ∈ word_new s := by
  rw [word_new_of_fits h]
  simp

theorem cstr_word_new {s : List Int} (h : (cstr s).length < MAX_STR) :
    cstr (word_new s) = cstr s := by
  rw [word_new_of_fits h, cstr_append_zero (zero_not_mem_cstr s)]

theorem fprintf_s_word_new {s : List Int} (h : (cstr s).length < MAX_STR) :
    fprintf_s (word_new s) = some (cstr s) := by
  unfold fprintf_s
  rw [if_pos (zero_mem_word_new h), cstr_word_new h]

theorem letters_word_new {s : List Int} (h : (cstr s).length < MAX_STR) :
    letters (word_new s) = letters s := by
  unfold letters
  rw [cstr_word_new h]

theorem signature_word_new {s : List Int} (h : (cstr s).length < MAX_STR) :
    signature (word_new s) = signature s := by
  unfold signature
  rw [letters_word_new h]

/-! ## The loader and the lookup, along child indices -/

theorem key_lower (s : List Int) :
    ∀ c ∈ trie_path (sort (lowerstrncpy s MAX_STR)), 97 ≤ c ∧ c ≤ 122 := by
  rw [trie_path_key]
  exact signature_lower _

theorem load_line_eq (t : trie) (b : List Int) :
    load_line t b = some (insert_at t (key_codes b) (word_new b)) :=
  trie_insert_eq t _ b (key_lower b)

theorem find_key_eq (t : trie) (q : List Int) :
    trie_find t (sort (lowerstrncpy q MAX_STR)) = some (node_at t (key_codes q)) :=
  trie_find_eq t _ (key_lower q)

theorem load_lines_eq (t : trie) (bufs : List (List Int)) :
    load_lines t bufs
      = some (bufs.foldl (fun st b => insert_at st (key_codes b) (word_new b)) t) := by
  induction bufs generalizing t with
  | nil => rfl
  | cons b rest ih =>
    rw [load_lines, load_line_eq]
    exact ih _

/-- The bucket at the child indices `cs` after a run of insertions: the records
of the buffers whose key selects `cs`, the latest first, before what was there. -/
theorem bucket_foldl (t : trie) (bufs : List (List Int)) (cs : List (Fin ALPHA_SIZE)) :
    (node_at (bufs.foldl (fun st b => insert_at st (key_codes b) (word_new b)) t) cs).words
      = ((bufs.filter (fun b => decide (key_codes b = cs))).reverse.map word_new)
          ++ (node_at t cs).words := by
  induction bufs generalizing t with
  | nil => rfl
  | cons b rest ih =>
    rw [List.foldl_cons, ih]
    by_cases hb : key_codes b = cs
    · subst hb
      rw [node_at_insert_at_same, words_node]
      simp
    · rw [node_at_insert_at_ne _ _ _ _ hb]
      simp [hb]

theorem key_codes_of_fits {s : List Int} (h : (cstr s).length < MAX_STR) :
    key_codes s = (signature s).map letter_index := by
  unfold key_codes
  rw [trie_path_key_of_fits h]

theorem key_codes_eq_iff {a b : List Int} (ha : (cstr a).length < MAX_STR)
    (hb : (cstr b).length < MAX_STR) :
    key_codes a = key_codes b ↔ signature a = signature b := by
  rw [key_codes_of_fits ha, key_codes_of_fits hb]
  constructor
  · exact map_letter_index_inj (signature_lower a) (signature_lower b)
  · intro h
    rw [h]

/-! ## Round trip, anagrams only, bucket order -/

/-- C1 (amended): for every trie `t`, every loader buffer `W` and every query
`Q` of at most `MAX_STR - 1 = 127` characters whose case-folded letters are a
permutation of those of `W`: inserting `W` with the loader's key computation
and looking `Q` up with the query's key computation returns a present node
whose bucket contains the record of `W`, and that record reads back as `W`. -/
theorem round_trip_insert_lookup (t : trie) (W Q : List Int)
    (hW : (cstr W).length < MAX_STR) (hQ : (cstr Q).length < MAX_STR)
    (hperm : (letters Q).Perm (letters W)) :
    ∃ t1 n, load_line t W = some t1 ∧
      trie_find t1 (sort (lowerstrncpy Q MAX_STR)) = some n ∧
      n.present = true ∧ word_new W ∈ n.words ∧
      fprintf_s (word_new W) = some (cstr W) := by
  have hk : key_codes Q = key_codes W :=
    (key_codes_eq_iff hQ hW).2 ((signature_eq_iff Q W).2 hperm)
  refine ⟨_, _, load_line_eq t W, find_key_eq _ Q, ?_, ?_, fprintf_s_word_new hW⟩
  · rw [hk, node_at_insert_at_same]
    rfl
  · rw [hk, node_at_insert_at_same, words_node]
    exact List.mem_cons_self _ _

/-- Witness of C1: the buffer `Listen` and the query `Si-LENT 1!` on the empty index. -/
theorem round_trip_insert_lookup_witness :
    (cstr (lit "Listen")).length < MAX_STR ∧ (cstr (lit "Si-LENT 1!")).length < MAX_STR ∧
    (letters (lit "Si-LENT 1!")).Perm (letters (lit "Listen")) ∧
    ∃ t1 n, load_line .NULL (lit "Listen") = some t1 ∧
      trie_find t1 (sort (lowerstrncpy (lit "Si-LENT 1!") MAX_STR)) = some n ∧
      n.present = true ∧ word_new (lit "Listen") ∈ n.words ∧
      fprintf_s (word_new (lit "Listen")) = some (cstr (lit "Listen")) :=
  ⟨by decide, by decide, by decide,
    round_trip_insert_lookup .NULL (lit "Listen") (lit "Si-LENT 1!")
      (by decide) (by decide) (by decide)⟩

/-- C1 as stated fails on a query longer than `MAX_STR - 1` characters: the
query made of 127 blanks followed by `a` has the letters of the word `a`, yet
after `a` is inserted into the empty index its lookup returns a node whose
bucket is empty (the key is computed from the first 127 characters only). -/
theorem round_trip_fails_for_long_query :
    (letters (List.replicate 127 32 ++ lit "a")).Perm (letters (lit "a")) ∧
    ((load_line .NULL (lit "a")).bind (fun t1 =>
        trie_find t1 (sort (lowerstrncpy (List.replicate 127 32 ++ lit "a") MAX_STR)))).map
      trie.words = some [] := by
  decide

/-- C2 (amended): in every index built from the empty one by the loader's loop
body on buffers of at most 127 characters, the lookup of every query `Q` of at
most `MAX_STR - 1 = 127` characters returns a node, and every record of its
bucket is the record of an inserted buffer, with the signature of `Q` (the
same case-folded letters up to order). -/
theorem only_anagrams_returned (bufs : List (List Int)) (Q : List Int)
    (hbufs : ∀ b ∈ bufs, (cstr b).length < MAX_STR) (hQ : (cstr Q).length < MAX_STR) :
    ∃ t n, load_lines .NULL bufs = some t ∧
      trie_find t (sort (lowerstrncpy Q MAX_STR)) = some n ∧
      ∀ w ∈ n.words, (∃ b ∈ bufs, w = word_new b ∧ cstr w = cstr b) ∧
        signature w = signature Q ∧ (letters w).Perm (letters Q) := by
  refine ⟨_, _, load_lines_eq .NULL bufs, find_key_eq _ Q, ?_⟩
  intro w hw
  rw [bucket_foldl, node_at_NULL] at hw
  simp only [trie.words, List.append_nil, List.mem_map, List.mem_reverse, List.mem_filter,
    decide_eq_true_eq] at hw
  obtain ⟨b, ⟨hb, hkey⟩, rfl⟩ := hw
  have hfit := hbufs b hb
  have hsig : signature (word_new b) = signature Q := by
    rw [signature_word_new hfit]
    exact (key_codes_eq_iff hfit hQ).1 hkey
  exact ⟨⟨b, hb, rfl, cstr_word_new hfit⟩, hsig, (signature_eq_iff _ _).1 hsig⟩

/-- Witness of C2: the buffers `listen`, `banana`, `Silent` and the query `tinsel`. -/
theorem only_anagrams_returned_witness :
    (∀ b ∈ [lit "listen", lit "banana", lit "Silent"], (cstr b).length < MAX_STR) ∧
    (cstr (lit "tinsel")).length < MAX_STR ∧
    ∃ t n, load_lines .NULL [lit "listen", lit "banana", lit "Silent"] = some t ∧
      trie_find t (sort (lowerstrncpy (lit "tinsel") MAX_STR)) = some n ∧
      ∀ w ∈ n.words,
        (∃ b ∈ [lit "listen", lit "banana", lit "Silent"], w = word_new b ∧ cstr w = cstr b) ∧
        signature w = signature (lit "tinsel") ∧ (letters w).Perm (letters (lit "tinsel")) :=
  ⟨by decide, by decide,
    only_anagrams_returned [lit "listen", lit "banana", lit "Silent"] (lit "tinsel")
      (by decide) (by decide)⟩

/-- C2 as stated fails on a query longer than `MAX_STR - 1` characters: after
`a` alone is loaded, the lookup of the 128-character query `a`, 126 blanks, `b`
returns the bucket of `a`, whose signature `a` is not the signature `ab` of the
query. -/
theorem long_query_returns_non_anagram :
    ((load_lines .NULL [lit "a"]).bind (fun t =>
        trie_find t (sort (lowerstrncpy (lit "a" ++ List.replicate 126 32 ++ lit "b")
          MAX_STR)))).map (fun n => n.words.map signature) = some [lit "a"] ∧
    signature (lit "a" ++ List.replicate 126 32 ++ lit "b") = lit "ab" := by
  decide

/-- C3: for every trie `t`, every two normalised keys `kA`, `kB` that spell the
same signature (the same letters for the walk) and every two display words `A`,
`B`: inserting `A` then `B` makes the lookup of that signature return the
bucket `B, A` followed by the bucket found before (so `[B, A]` when that was
empty). In general, after the loader's loop body has run on the buffers `bufs`,
the bucket found for a query holds the records of the buffers with the query's
signature, the most recently inserted first, followed by the bucket found
before. -/
theorem bucket_order_most_recent_first (t : trie) (kA kB A B : List Int)
    (hk : ∀ c ∈ trie_path kA, 97 ≤ c ∧ c ≤ 122) (hsig : trie_path kA = trie_path kB) :
    (∃ t1 t2 n0 n2, trie_insert t kA A = some t1 ∧ trie_insert t1 kB B = some t2 ∧
      trie_find t kA = some n0 ∧ trie_find t2 kA = some n2 ∧
      n2.words = word_new B :: word_new A :: n0.words ∧
      (n0.words = [] → n2.words = [word_new B, word_new A])) ∧
    ∀ (bufs : List (List Int)) (Q : List Int),
      (∀ b ∈ bufs, (cstr b).length < MAX_STR) → (cstr Q).length < MAX_STR →
      ∃ t3 n0 n, load_lines t bufs = some t3 ∧
        trie_find t (sort (lowerstrncpy Q MAX_STR)) = some n0 ∧
        trie_find t3 (sort (lowerstrncpy Q MAX_STR)) = some n ∧
        n.words = ((bufs.filter (fun b => decide (signature b = signature Q))).reverse.map
          word_new) ++ n0.words := by
  constructor
  · have hkB : ∀ c ∈ trie_path kB, 97 ≤ c ∧ c ≤ 122 := hsig ▸ hk
    have hw : (node_at (insert_at (insert_at t ((trie_path kA).map letter_index) (word_new A))
        ((trie_path kA).map letter_index) (word_new B)) ((trie_path kA).map letter_index)).words
        = word_new B :: word_new A :: (node_at t ((trie_path kA).map letter_index)).words := by
      rw [node_at_insert_at_same, node_at_insert_at_same, words_node, words_node]
    refine ⟨insert_at t ((trie_path kA).map letter_index) (word_new A),
      insert_at (insert_at t ((trie_path kA).map letter_index) (word_new A))
        ((trie_path kA).map letter_index) (word_new B),
      _, _, trie_insert_eq t kA A hk, ?_, trie_find_eq t kA hk,
      trie_find_eq _ kA hk, hw, ?_⟩
    · rw [trie_insert_eq _ kB B hkB, ← hsig]
    · intro h0
      rw [hw, h0]
  · intro bufs Q hbufs hQ
    refine ⟨_, _, _, load_lines_eq t bufs, find_key_eq t Q, find_key_eq _ Q, ?_⟩
    rw [bucket_foldl]
    congr 3
    apply List.filter_congr
    intro b hb
    rw [decide_eq_decide]
    exact key_codes_eq_iff (hbufs b hb) hQ

/-- Witness of C3: the keys of `Listen` and of `silent!` on the empty index. -/
theorem bucket_order_most_recent_first_witness :
    (∀ c ∈ trie_path (sort (lowerstrncpy (lit "Listen") MAX_STR)), 97 ≤ c ∧ c ≤ 122) ∧
    trie_path (sort (lowerstrncpy (lit "Listen") MAX_STR))
      = trie_path (sort (lowerstrncpy (lit "silent!") MAX_STR)) ∧
    ∃ t1 t2 n0 n2,
      trie_insert .NULL (sort (lowerstrncpy (lit "Listen") MAX_STR)) (lit "Listen") = some t1 ∧
      trie_insert t1 (sort (lowerstrncpy (lit "silent!") MAX_STR)) (lit "silent!") = some t2 ∧
      trie_find .NULL (sort (lowerstrncpy (lit "Listen") MAX_STR)) = some n0 ∧
      trie_find t2 (sort (lowerstrncpy (lit "Listen") MAX_STR)) = some n2 ∧
      n2.words = word_new (lit "silent!") :: word_new (lit "Listen") :: n0.words ∧
      (n0.words = [] → n2.words = [word_new (lit "silent!"), word_new (lit "Listen")]) :=
  ⟨by decide, by decide,
    (bucket_order_most_recent_first .NULL (sort (lowerstrncpy (lit "Listen") MAX_STR))
      (sort (lowerstrncpy (lit "silent!") MAX_STR)) (lit "Listen") (lit "silent!")
      (by decide) (by decide)).1⟩

/-! ## Misses, duplicates, the empty signature -/

theorem trie_find_NULL (p : List Int) : trie_find .NULL p = some .NULL := by
  cases p <;> rfl

theorem print_anagrams_of_empty_bucket {st n : trie} {q : List Int}
    (hfind : trie_find st (sort (lowerstrncpy q MAX_STR)) = some n) (hn : n.words = []) :
    print_anagrams st q = some (lit "Anagrams of " ++ cstr q ++ lit ":\n") := by
  unfold print_anagrams
  rw [hfind]
  cases n with
  | NULL => rfl
  | node ws ch =>
    rw [words_node] at hn
    subst hn
    simp [print_words]

theorem key_codes_of_no_letters {s : List Int} (h : letters s = []) : key_codes s = [] := by
  unfold key_codes
  rw [trie_path_key]
  unfold signature letters
  rw [cstr_take_cstr]
  unfold letters at h
  have hf : (cstr s).filter isalpha = [] := List.map_eq_nil_iff.1 h
  have hall : ∀ c ∈ cstr s, ¬ isalpha c = true := List.filter_eq_nil_iff.1 hf
  have hf2 : ((cstr s).take (MAX_STR - 1)).filter isalpha = [] :=
    List.filter_eq_nil_iff.2 (fun c hc => hall c (List.mem_of_mem_take hc))
  rw [hf2]
  rfl

/-- C4 (amended): in every index built from the empty one by the loader's loop
body on buffers of at most 127 characters, for every query `Q` of at most
`MAX_STR - 1 = 127` characters whose signature is the signature of no inserted
buffer, the lookup returns (no undefined behaviour) a node that is absent or
has an empty bucket, and `print_anagrams` writes the header alone; on the
`NULL` index `trie_find` returns `NULL` for every key. -/
theorem miss_gives_empty_bucket (bufs : List (List Int)) (Q : List Int)
    (hbufs : ∀ b ∈ bufs, (cstr b).length < MAX_STR) (hQ : (cstr Q).length < MAX_STR)
    (hmiss : ∀ b ∈ bufs, signature b ≠ signature Q) :
    (∃ t n, load_lines .NULL bufs = some t ∧
      trie_find t (sort (lowerstrncpy Q MAX_STR)) = some n ∧ n.words = [] ∧
      print_anagrams t Q = some (lit "Anagrams of " ++ cstr Q ++ lit ":\n")) ∧
    ∀ q : List Int, trie_find .NULL q = some .NULL := by
  refine ⟨?_, trie_find_NULL⟩
  have hw : (node_at (bufs.foldl (fun st b => insert_at st (key_codes b) (word_new b)) .NULL)
      (key_codes Q)).words = [] := by
    rw [bucket_foldl, node_at_NULL]
    have hf : bufs.filter (fun b => decide (key_codes b = key_codes Q)) = [] := by
      apply List.filter_eq_nil_iff.2
      intro b hb
      rw [decide_eq_true_eq, key_codes_eq_iff (hbufs b hb) hQ]
      exact hmiss b hb
    rw [hf]
    rfl
  exact ⟨_, _, load_lines_eq .NULL bufs, find_key_eq _ Q, hw,
    print_anagrams_of_empty_bucket (find_key_eq _ Q) hw⟩

/-- Witness of C4: the buffers `listen`, `banana` and the query `xyz`. -/
theorem miss_gives_empty_bucket_witness :
    (∀ b ∈ [lit "listen", lit "banana"], (cstr b).length < MAX_STR) ∧
    (cstr (lit "xyz")).length < MAX_STR ∧
    (∀ b ∈ [lit "listen", lit "banana"], signature b ≠ signature (lit "xyz")) ∧
    (∃ t n, load_lines .NULL [lit "listen", lit "banana"] = some t ∧
      trie_find t (sort (lowerstrncpy (lit "xyz") MAX_STR)) = some n ∧ n.words = [] ∧
      print_anagrams t (lit "xyz") = some (lit "Anagrams of " ++ cstr (lit "xyz") ++ lit ":\n")) :=
  ⟨by decide, by decide, by decide,
    (miss_gives_empty_bucket [lit "listen", lit "banana"] (lit "xyz")
      (by decide) (by decide) (by decide)).1⟩

/-- C4 as stated fails on a query longer than `MAX_STR - 1` characters: after
`b` alone is loaded, the 128-character query `b`, 126 blanks, `c` has the
signature `bc` of no inserted word, yet its lookup returns a bucket of one
record and `print_anagrams` writes the body line of `b`. -/
theorem long_query_miss_prints_body :
    (∀ b ∈ [lit "b"], signature b ≠ signature (lit "b" ++ List.replicate 126 32 ++ lit "c")) ∧
    ((load_lines .NULL [lit "b"]).bind (fun t =>
        trie_find t (sort (lowerstrncpy (lit "b" ++ List.replicate 126 32 ++ lit "c")
          MAX_STR)))).map (fun n => n.words.length) = some 1 ∧
    (load_lines .NULL [lit "b"]).bind (fun t =>
        print_anagrams t (lit "b" ++ List.replicate 126 32 ++ lit "c"))
      = some (lit "Anagrams of " ++ (lit "b" ++ List.replicate 126 32 ++ lit "c")
          ++ lit ":\n" ++ lit "\tb\n") := by
  decide

/-- C5: the loader's insertion of a word `W` always returns an index (it never
rejects the word); each insertion puts one more record of `W` in front of the
bucket found for the signature of `W`, also when that bucket already holds the
same spelling: inserting `W` twice turns the bucket `ws` into `W, W, ws`, of
length 2 with two copies of `W` when `ws` was empty; the record reads back as
`W` when `W` is a buffer content (at most 127 characters). -/
theorem no_deduplication (t : trie) (W : List Int) :
    ∃ t1 t2 n0 n1 n2, load_line t W = some t1 ∧ load_line t1 W = some t2 ∧
      trie_find t (sort (lowerstrncpy W MAX_STR)) = some n0 ∧
      trie_find t1 (sort (lowerstrncpy W MAX_STR)) = some n1 ∧
      trie_find t2 (sort (lowerstrncpy W MAX_STR)) = some n2 ∧
      n1.words = word_new W :: n0.words ∧
      n2.words = word_new W :: word_new W :: n0.words ∧
      n1.words.length = n0.words.length + 1 ∧
      n2.words.length = n1.words.length + 1 ∧
      (n0.words = [] → n2.words = [word_new W, word_new W] ∧ n2.words.length = 2) ∧
      ((cstr W).length < MAX_STR → fprintf_s (word_new W) = some (cstr W)) := by
  have h1 : (node_at (insert_at t (key_codes W) (word_new W)) (key_codes W)).words
      = word_new W :: (node_at t (key_codes W)).words := by
    rw [node_at_insert_at_same, words_node]
  have h2 : (node_at (insert_at (insert_at t (key_codes W) (word_new W)) (key_codes W)
      (word_new W)) (key_codes W)).words
      = word_new W :: word_new W :: (node_at t (key_codes W)).words := by
    rw [node_at_insert_at_same, words_node, h1]
  refine ⟨insert_at t (key_codes W) (word_new W),
    insert_at (insert_at t (key_codes W) (word_new W)) (key_codes W) (word_new W),
    _, _, _, load_line_eq t W, load_line_eq _ W, find_key_eq t W, find_key_eq _ W,
    find_key_eq _ W, h1, h2, ?_, ?_, ?_, fprintf_s_word_new⟩
  · rw [h1]
    rfl
  · rw [h2, h1]
    rfl
  · intro h0
    rw [h2, h0]
    exact ⟨rfl, rfl⟩

/-- Witness of C5: `noon` inserted twice into the empty index gives a bucket of
two records of `noon`. -/
theorem no_deduplication_witness :
    ∃ t1 t2 n2, load_line .NULL (lit "noon") = some t1 ∧
      load_line t1 (lit "noon") = some t2 ∧
      trie_find t2 (sort (lowerstrncpy (lit "noon") MAX_STR)) = some n2 ∧
      n2.words = [word_new (lit "noon"), word_new (lit "noon")] ∧ n2.words.length = 2 ∧
      fprintf_s (word_new (lit "noon")) = some (cstr (lit "noon")) := by
  obtain ⟨t1, t2, n0, n1, n2, h1, h2, h0, -, hf2, -, -, -, -, hempty, hfit⟩ :=
    no_deduplication .NULL (lit "noon")
  rw [trie_find_NULL] at h0
  have hn0 : n0.words = [] := by
    cases h0
    rfl
  exact ⟨t1, t2, n2, h1, h2, hf2, (hempty hn0).1, (hempty hn0).2, hfit (by decide)⟩

/-- C6: a word `W` with no alphabetic character is stored by the loader in the
bucket of the root node itself, the children of the root being left as they
were (no child node is created); and the lookup of every query with no
alphabetic character returns that root node, whose bucket contains the record
of `W`. -/
theorem empty_signature_at_root (t : trie) (W : List Int) (hW : letters W = []) :
    ∃ t1, load_line t W = some t1 ∧ t1.present = true ∧
      t1.words = word_new W :: t.words ∧ t1.child = t.child ∧
      ∀ Q : List Int, letters Q = [] →
        trie_find t1 (sort (lowerstrncpy Q MAX_STR)) = some t1 ∧ word_new W ∈ t1.words := by
  refine ⟨insert_at t [] (word_new W), ?_, rfl, ?_, ?_, ?_⟩
  · rw [load_line_eq, key_codes_of_no_letters hW]
  · rw [insert_at, words_node, trie_alloc_words]
  · rw [insert_at, child_node, trie_alloc_child]
  · intro Q hQ
    refine ⟨?_, ?_⟩
    · rw [find_key_eq, key_codes_of_no_letters hQ]
      rfl
    · rw [insert_at, words_node]
      exact List.mem_cons_self _ _

/-- Witness of C6: the word `123` on the empty index, looked up by `4 5-6`. -/
theorem empty_signature_at_root_witness :
    letters (lit "123") = [] ∧ letters (lit "4 5-6") = [] ∧
    ∃ t1, load_line .NULL (lit "123") = some t1 ∧ t1.present = true ∧
      t1.words = [word_new (lit "123")] ∧
      trie_find t1 (sort (lowerstrncpy (lit "4 5-6") MAX_STR)) = some t1 ∧
      fprintf_s (word_new (lit "123")) = some (lit "123") := by
  obtain ⟨t1, h1, h2, h3, -, h5⟩ := empty_signature_at_root .NULL (lit "123") (by decide)
  exact ⟨by decide, by decide, t1, h1, h2, h3, (h5 (lit "4 5-6") (by decide)).1, by decide⟩

/-! ## The key against the signature of the specification -/

theorem trie_path_key_succ (s : List Int) (n : Nat) :
    trie_path (sort (lowerstrncpy s (n + 1 : Int))) = signature ((cstr s).take n) := by
  have hz : (0 : Int) ∉ ((cstr s).take n).map tolower :=
    zero_not_mem_map_tolower (zero_not_mem_take_cstr s _)
  have hz2 : (0 : Int) ∉ (((cstr s).take n).map tolower).insertionSort cmp_le :=
    fun h => hz ((List.perm_insertionSort _ _).mem_iff.1 h)
  rw [lowerstrncpy_succ, sort_of_no_zero hz, trie_path_of_no_zero hz2, insertionSort_cmp_le,
    filter_insertionSort, filter_isalpha_map_tolower]
  unfold signature letters
  rw [cstr_take_cstr]

theorem trie_path_key_of_lt (s : List Int) (max : Int) (h : ((cstr s).length : Int) < max) :
    trie_path (sort (lowerstrncpy s max)) = signature s := by
  have hmax : max = (((max - 1).toNat : Nat) : Int) + 1 := by omega
  have hlen : (cstr s).length ≤ (max - 1).toNat := by omega
  rw [hmax, trie_path_key_succ, List.take_of_length_le hlen, signature_cstr]

/-- C7 (amended): for every `max` and any two strings of at most `max - 1`
characters (`MAX_STR - 1 = 127` in both callers) whose case-folded alphabetic
characters are permutations of each other, the keys computed by `lowerstrncpy`
then `sort` make the walk of `trie_insert` and `trie_find` consume the same
letters, hence compute the same sequence of child indices `*p - 97`, and the
two keys give the same insertion and the same lookup on every trie. -/
theorem signature_invariance (max : Int) (s1 s2 : List Int)
    (h1 : ((cstr s1).length : Int) < max) (h2 : ((cstr s2).length : Int) < max)
    (hperm : (letters s1).Perm (letters s2)) :
    trie_path (sort (lowerstrncpy s1 max)) = trie_path (sort (lowerstrncpy s2 max)) ∧
    (trie_path (sort (lowerstrncpy s1 max))).map (fun c => c - 97)
      = (trie_path (sort (lowerstrncpy s2 max))).map (fun c => c - 97) ∧
    ∀ (t : trie) (w : List Int),
      trie_insert t (sort (lowerstrncpy s1 max)) w
        = trie_insert t (sort (lowerstrncpy s2 max)) w ∧
      trie_find t (sort (lowerstrncpy s1 max)) = trie_find t (sort (lowerstrncpy s2 max)) := by
  have hp1 := trie_path_key_of_lt s1 max h1
  have hp2 := trie_path_key_of_lt s2 max h2
  have hsig : signature s1 = signature s2 := (signature_eq_iff s1 s2).2 hperm
  have hpath : trie_path (sort (lowerstrncpy s1 max)) = trie_path (sort (lowerstrncpy s2 max)) := by
    rw [hp1, hp2, hsig]
  have hl1 : ∀ c ∈ trie_path (sort (lowerstrncpy s1 max)), 97 ≤ c ∧ c ≤ 122 := by
    rw [hp1]
    exact signature_lower s1
  have hl2 : ∀ c ∈ trie_path (sort (lowerstrncpy s2 max)), 97 ≤ c ∧ c ≤ 122 := by
    rw [hp2]
    exact signature_lower s2
  refine ⟨hpath, by rw [hpath], fun t w => ⟨?_, ?_⟩⟩
  · rw [trie_insert_eq t _ w hl1, trie_insert_eq t _ w hl2, hpath]
  · rw [trie_find_eq t _ hl1, trie_find_eq t _ hl2, hpath]

/-- Witness of C7: `Dormitory` and `dirty room!` with `max = MAX_STR`. -/
theorem signature_invariance_witness :
    ((cstr (lit "Dormitory")).length : Int) < 128 ∧
    ((cstr (lit "dirty room!")).length : Int) < 128 ∧
    (letters (lit "Dormitory")).Perm (letters (lit "dirty room!")) ∧
    trie_path (sort (lowerstrncpy (lit "Dormitory") 128))
      = trie_path (sort (lowerstrncpy (lit "dirty room!") 128)) :=
  ⟨by decide, by decide, by decide,
    (signature_invariance 128 (lit "Dormitory") (lit "dirty room!")
      (by decide) (by decide) (by decide)).1⟩

/-- C7 as stated fails on a string longer than `MAX_STR - 1` characters: `Ab`
and the 128-character string `b`, 126 dashes, `a` have the same case-folded
letters, but the walk consumes `a, b` from the key of the first and `b` alone
from the key of the second. -/
theorem long_string_changes_path :
    (letters (lit "Ab")).Perm (letters (lit "b" ++ List.replicate 126 45 ++ lit "a")) ∧
    trie_path (sort (lowerstrncpy (lit "Ab") MAX_STR)) = lit "ab" ∧
    trie_path (sort (lowerstrncpy (lit "b" ++ List.replicate 126 45 ++ lit "a") MAX_STR))
      = lit "b" := by
  decide

/-- C8 (amended): for every `max` and every input string of at most `max - 1`
characters (`MAX_STR - 1 = 127` in both callers), the letters that the walk of
`trie_insert` and `trie_find` consumes from the key made by `lowerstrncpy` then
`sort` are the reference signature of the input (alphabetic characters only,
case-folded, sorted ascending), and on every trie the code's insertion and
lookup are the specification's walk along that signature; for an input of any
length the letters consumed are the reference signature of its first
`MAX_STR - 1` characters. -/
theorem key_refines_signature (max : Int) (s : List Int)
    (hfit : ((cstr s).length : Int) < max) :
    trie_path (sort (lowerstrncpy s max)) = signature s ∧
    (∀ (t : trie) (w : List Int),
      trie_insert t (sort (lowerstrncpy s max)) w
        = some (insert_at t ((signature s).map letter_index) (word_new w)) ∧
      trie_find t (sort (lowerstrncpy s max))
        = some (node_at t ((signature s).map letter_index))) ∧
    ∀ r : List Int,
      trie_path (sort (lowerstrncpy r MAX_STR)) = signature ((cstr r).take (MAX_STR - 1)) := by
  have hp := trie_path_key_of_lt s max hfit
  have hl : ∀ c ∈ trie_path (sort (lowerstrncpy s max)), 97 ≤ c ∧ c ≤ 122 := by
    rw [hp]
    exact signature_lower s
  refine ⟨hp, fun t w => ⟨?_, ?_⟩, trie_path_key⟩
  · rw [trie_insert_eq t _ w hl, hp]
  · rw [trie_find_eq t _ hl, hp]

/-- Witness of C8: the input `Hello, World!` with `max = MAX_STR`. -/
theorem key_refines_signature_witness :
    ((cstr (lit "Hello, World!")).length : Int) < 128 ∧
    trie_path (sort (lowerstrncpy (lit "Hello, World!") 128)) = signature (lit "Hello, World!") ∧
    signature (lit "Hello, World!") = lit "dehllloorw" :=
  ⟨by decide, (key_refines_signature 128 (lit "Hello, World!") (by decide)).1, by decide⟩

/-- C8 as stated fails on an input longer than `MAX_STR - 1` characters: for
127 digits `1` followed by `z` the walk consumes no letter from the key, while
the reference signature of the input is `z`. -/
theorem long_input_key_differs_from_signature :
    trie_path (sort (lowerstrncpy (List.replicate 127 49 ++ lit "z") MAX_STR)) = [] ∧
    signature (List.replicate 127 49 ++ lit "z") = lit "z" := by
  decide

/-! ## The output of `print_anagrams` -/

theorem print_words_eq {ws : List word} (h : ∀ r ∈ ws, (0 : Int) ∈ r) :
    print_words ws = some ((ws.map (fun r => lit "\t" ++ cstr r ++ lit "\n")).flatten) := by
  induction ws with
  | nil => rfl
  | cons r ws ih =>
    have hr : (0 : Int) ∈ r := h r (List.mem_cons_self _ _)
    rw [print_words, ih (fun a ha => h a (List.mem_cons_of_mem _ ha))]
    simp [fprintf_s, hr]

theorem built_records_terminated {bufs : List (List Int)} {st : trie}
    (hbufs : ∀ b ∈ bufs, (cstr b).length < MAX_STR) (hst : load_lines .NULL bufs = some st)
    (cs : List (Fin ALPHA_SIZE)) : ∀ r ∈ (node_at st cs).words, (0 : Int) ∈ r := by
  rw [load_lines_eq] at hst
  cases hst
  intro r hr
  rw [bucket_foldl, node_at_NULL] at hr
  simp only [trie.words, List.append_nil, List.mem_map, List.mem_reverse, List.mem_filter] at hr
  obtain ⟨b, ⟨hb, -⟩, rfl⟩ := hr
  exact zero_mem_word_new (hbufs b hb)

/-- The loop body of `load_dictionary` on given buffer contents: run on
`listen`, `silent`, `enlist`, `banana`, in that order, from the empty index, it
makes `print_anagrams` write for `tinsel` the header and the entries `enlist`,
`silent`, `listen`, and for `xyz` the header alone; when each buffer ends with
the newline of its line the entries found are the same lines, each with its
newline. -/
theorem loop_body_example :
    (load_lines .NULL [lit "listen", lit "silent", lit "enlist", lit "banana"]).bind
        (fun st => print_anagrams st (lit "tinsel"))
      = some (lit "Anagrams of tinsel:\n\tenlist\n\tsilent\n\tlisten\n") ∧
    ((load_lines .NULL [lit "listen", lit "silent", lit "enlist", lit "banana"]).bind
        (fun st => trie_find st (sort (lowerstrncpy (lit "tinsel") MAX_STR)))).map
        (fun n => n.words.map cstr)
      = some [lit "enlist", lit "silent", lit "listen"] ∧
    (load_lines .NULL [lit "listen", lit "silent", lit "enlist", lit "banana"]).bind
        (fun st => print_anagrams st (lit "xyz"))
      = some (lit "Anagrams of xyz:\n") ∧
    ((load_lines .NULL [lit "listen\n", lit "silent\n", lit "enlist\n", lit "banana\n"]).bind
        (fun st => trie_find st (sort (lowerstrncpy (lit "tinsel") MAX_STR)))).map
        (fun n => n.words.map cstr)
      = some [lit "enlist\n", lit "silent\n", lit "listen\n"] := by
  decide

/-- C10: for every trie `st` and every query word `w` the lookup of
`print_anagrams` returns a node `n` (absent, empty or not), and when the
records of its bucket hold terminated strings, as they do in every index the
loader builds, the output is the header `Anagrams of w:` with `w` as given,
followed by one line, a tab and the entry, per record of the bucket, in bucket
order, and nothing else. -/
theorem output_shape (st : trie) (w : List Int) :
    ∃ n, trie_find st (sort (lowerstrncpy w MAX_STR)) = some n ∧
      ((∀ r ∈ n.words, (0 : Int) ∈ r) →
        print_anagrams st w
          = some (lit "Anagrams of " ++ cstr w ++ lit ":\n"
              ++ (n.words.map (fun r => lit "\t" ++ cstr r ++ lit "\n")).flatten)) ∧
      ∀ bufs : List (List Int), (∀ b ∈ bufs, (cstr b).length < MAX_STR) →
        load_lines .NULL bufs = some st → ∀ r ∈ n.words, (0 : Int) ∈ r := by
  refine ⟨_, find_key_eq st w, ?_, fun bufs hbufs hst => built_records_terminated hbufs hst _⟩
  intro hterm
  unfold print_anagrams
  rw [find_key_eq]
  cases hn : node_at st (key_codes w) with
  | NULL => simp [trie.words]
  | node ws ch =>
    rw [hn, words_node] at hterm
    simp [print_words_eq hterm, trie.words]

/-- Witness of C10: the query `Tinsel!` on the index built from `listen` and `silent`. -/
theorem output_shape_witness :
    ∃ st, load_lines .NULL [lit "listen", lit "silent"] = some st ∧
      print_anagrams st (lit "Tinsel!")
        = some (lit "Anagrams of Tinsel!:\n\tsilent\n\tlisten\n") := by
  refine ⟨_, load_lines_eq .NULL [lit "listen", lit "silent"], ?_⟩
  obtain ⟨n, hn, hout, hterm⟩ :=
    output_shape ([lit "listen", lit "silent"].foldl
      (fun st b => insert_at st (key_codes b) (word_new b)) .NULL) (lit "Tinsel!")
  have hws : n.words = [word_new (lit "silent"), word_new (lit "listen")] := by
    rw [find_key_eq] at hn
    cases hn
    decide
  rw [hout (hterm [lit "listen", lit "silent"] (by decide) (load_lines_eq _ _)), hws]
  decide

/-! ## The word record, child indices, key truncation -/

theorem word_new_of_long {s : List Int} (h : MAX_STR ≤ (cstr s).length) :
    word_new s = (cstr s).take MAX_STR ∧ (0 : Int) ∉ word_new s := by
  have hlen : ((cstr s).take MAX_STR).length = MAX_STR := by
    rw [List.length_take]
    exact Nat.min_eq_left h
  have hw : word_new s = (cstr s).take MAX_STR := by
    unfold word_new strncpy
    rw [hlen]
    simp
  exact ⟨hw, hw ▸ zero_not_mem_take_cstr s MAX_STR⟩

theorem lowerstrncpy_mem (s : List Int) (max : Int) :
    ∀ c ∈ lowerstrncpy s max, c ≠ 0 ∧ (isalpha c = true → 97 ≤ c ∧ c ≤ 122) := by
  induction s generalizing max with
  | nil =>
    intro c hc
    simp [lowerstrncpy] at hc
  | cons a s ih =>
    intro c hc
    rw [lowerstrncpy] at hc
    by_cases h : max - 1 ≠ 0 ∧ a ≠ 0
    · rw [if_pos h] at hc
      rcases List.mem_cons.1 hc with rfl | hc
      · exact ⟨tolower_ne_zero h.2, fun ha => tolower_lower (isalpha_tolower a ▸ ha)⟩
      · exact ih _ c hc
    · rw [if_neg h] at hc
      simp at hc

theorem mem_trie_path {p : List Int} {c : Int} (h : c ∈ trie_path p) :
    c ∈ p ∧ isalpha c = true := by
  induction p with
  | nil => simp [trie_path] at h
  | cons a p ih =>
    rw [trie_path] at h
    by_cases hskip : a ≠ 0 ∧ isalpha a = false
    · rw [if_pos hskip] at h
      exact ⟨List.mem_cons_of_mem _ (ih h).1, (ih h).2⟩
    · rw [if_neg hskip] at h
      by_cases ha : a ≠ 0
      · rw [if_pos ha] at h
        rcases List.mem_cons.1 h with rfl | h
        · refine ⟨List.mem_cons_self _ _, ?_⟩
          by_contra hal
          exact hskip ⟨ha, by simpa using hal⟩
        · exact ⟨List.mem_cons_of_mem _ (ih h).1, (ih h).2⟩
      · rw [if_neg ha] at h
        simp at h

theorem mem_sort {k : List Int} {c : Int} (h : c ∈ sort k) : c ∈ k := by
  unfold sort at h
  have h1 : c ∈ cstr k := (List.perm_insertionSort _ _).mem_iff.1 h
  exact (List.takeWhile_prefix _).subset h1

theorem key_lower_of_max (s : List Int) (max : Int) :
    ∀ c ∈ trie_path (sort (lowerstrncpy s max)), 97 ≤ c ∧ c ≤ 122 := by
  intro c hc
  have h1 := mem_trie_path hc
  exact (lowerstrncpy_mem s max c (mem_sort h1.1)).2 h1.2

/-- C15: for every input string `s` and every `max`, every character that
passes `isalpha` in the key made by `lowerstrncpy` then `sort` is a lowercase
letter, so every child index `*p - 97` that the walk of `trie_insert` and
`trie_find` computes on that key lies in `0..25`, and both functions return
(the access outside `child` is not reached) on every trie; on a key that still
holds an uppercase letter, such as `A`, the access outside `child` is reached. -/
theorem child_index_in_range (max : Int) (s : List Int) :
    (∀ c ∈ sort (lowerstrncpy s max), isalpha c = true → 97 ≤ c ∧ c ≤ 122) ∧
    (∀ c ∈ trie_path (sort (lowerstrncpy s max)),
      0 ≤ c - 97 ∧ c - 97 < 26 ∧ (child_index (c - 97)).isSome = true) ∧
    (∀ (t : trie) (w : List Int), ∃ t1, trie_insert t (sort (lowerstrncpy s max)) w = some t1) ∧
    (∀ t : trie, ∃ n, trie_find t (sort (lowerstrncpy s max)) = some n) ∧
    (trie_insert .NULL (lit "A") []).isNone = true ∧
    (trie_find trie_new (lit "A")).isNone = true := by
  refine ⟨fun c hc => (lowerstrncpy_mem s max c (mem_sort hc)).2, ?_,
    fun t w => ⟨_, trie_insert_eq t _ w (key_lower_of_max s max)⟩,
    fun t => ⟨_, trie_find_eq t _ (key_lower_of_max s max)⟩, by decide, by decide⟩
  intro c hc
  have h := key_lower_of_max s max c hc
  refine ⟨by omega, by omega, ?_⟩
  rw [child_index_of_lower h]
  rfl

/-- C18: for every source string and every `max ≥ 1`, the string `lowerstrncpy`
leaves in `dst` is made of the first `min(length(src), max - 1)` characters of
`src`, case-folded, none of them a NUL; hence with `max = MAX_STR` two queries
whose first 127 characters agree are looked up to the same node, with the same
bucket, on every index. -/
theorem key_truncation (src : List Int) (max : Int) (hmax : 1 ≤ max) :
    lowerstrncpy src max = ((cstr src).take (max - 1).toNat).map tolower ∧
    (lowerstrncpy src max).length = min (cstr src).length (max - 1).toNat ∧
    (0 : Int) ∉ lowerstrncpy src max ∧
    ∀ (t : trie) (q1 q2 : List Int),
      (cstr q1).take (MAX_STR - 1) = (cstr q2).take (MAX_STR - 1) →
      trie_find t (sort (lowerstrncpy q1 MAX_STR)) = trie_find t (sort (lowerstrncpy q2 MAX_STR)) := by
  have hm : max = (((max - 1).toNat : Nat) : Int) + 1 := by omega
  have h1 : lowerstrncpy src max = ((cstr src).take (max - 1).toNat).map tolower := by
    conv_lhs => rw [hm]
    exact lowerstrncpy_succ src _
  refine ⟨h1, ?_, fun h0 => (lowerstrncpy_mem src max 0 h0).1 rfl, ?_⟩
  · rw [h1, List.length_map, List.length_take, Nat.min_comm]
  · intro t q1 q2 hq
    rw [lowerstrncpy_MAX_STR, lowerstrncpy_MAX_STR, hq]

/-- Witness of C18: `lowerstrncpy` of `Hello` with `max = 4` leaves `hel`. -/
theorem key_truncation_witness :
    (1 : Int) ≤ 4 ∧ lowerstrncpy (lit "Hello") 4 = lit "hel" ∧
    (lowerstrncpy (lit "Hello") 4).length = 3 := by
  obtain ⟨h1, h2, -, -⟩ := key_truncation (lit "Hello") 4 (by decide)
  exact ⟨by decide, h1.trans (by decide), h2.trans (by decide)⟩

/-! ## Sequences of insertions: which nodes exist, which buckets change -/

theorem trie_path_of_lower {p : List Int} (h : ∀ c ∈ p, 97 ≤ c ∧ c ≤ 122) : trie_path p = p := by
  induction p with
  | nil => rfl
  | cons c p ih =>
    have hc := h c (List.mem_cons_self _ _)
    have hc0 : c ≠ 0 := by omega
    have ha : isalpha c = true := by
      unfold isalpha
      simp [hc.1, hc.2]
    have hskip : ¬ (c ≠ 0 ∧ isalpha c = false) := by simp [ha]
    rw [trie_path, if_neg hskip, if_pos hc0, ih (fun a ha => h a (List.mem_cons_of_mem _ ha))]

theorem map_letter_index_pre_iff {l1 l2 : List Int} (h1 : ∀ c ∈ l1, 97 ≤ c ∧ c ≤ 122)
    (h2 : ∀ c ∈ l2, 97 ≤ c ∧ c ≤ 122) :
    l1.map letter_index <+: l2.map letter_index ↔ l1 <+: l2 := by
  constructor
  · intro h
    rw [List.prefix_iff_eq_take, List.length_map, ← List.map_take] at h
    have hl := map_letter_index_inj h1 (fun c hc => h2 c (List.mem_of_mem_take hc)) h
    rw [hl]
    exact List.take_prefix _ _
  · exact fun h => h.map _

theorem present_insert_at (t : trie) (cs p : List (Fin ALPHA_SIZE)) (w : word) :
    (node_at (insert_at t cs w) p).present = true ↔
      (node_at t p).present = true ∨ p <+: cs := by
  induction cs generalizing t p with
  | nil =>
    cases p with
    | nil => simp [insert_at, node_at, trie.present]
    | cons j r => simp [insert_at, node_at, child_node, trie_alloc_child]
  | cons i cs ih =>
    cases p with
    | nil => simp [insert_at, node_at, trie.present]
    | cons j r =>
      simp only [insert_at, node_at, child_node]
      by_cases hij : j = i
      · subst hij
        rw [Function.update_same, ih, trie_alloc_child, List.cons_prefix_cons]
        simp
      · rw [Function.update_noteq hij, trie_alloc_child, List.cons_prefix_cons]
        simp [hij]

theorem present_foldl (t : trie) (l : List (List (Fin ALPHA_SIZE) × word))
    (p : List (Fin ALPHA_SIZE)) :
    (node_at (l.foldl (fun st x => insert_at st x.1 x.2) t) p).present = true ↔
      (node_at t p).present = true ∨ ∃ x ∈ l, p <+: x.1 := by
  induction l generalizing t with
  | nil => simp
  | cons x l ih =>
    rw [List.foldl_cons, ih, present_insert_at]
    simp only [List.mem_cons, exists_eq_or_imp]
    tauto

theorem words_foldl (t : trie) (l : List (List (Fin ALPHA_SIZE) × word))
    (cs : List (Fin ALPHA_SIZE)) :
    (node_at (l.foldl (fun st x => insert_at st x.1 x.2) t) cs).words
      = ((l.filter (fun x => decide (x.1 = cs))).reverse.map (fun x => x.2))
          ++ (node_at t cs).words := by
  induction l generalizing t with
  | nil => rfl
  | cons x l ih =>
    rw [List.foldl_cons, ih]
    by_cases hx : x.1 = cs
    · subst hx
      rw [node_at_insert_at_same, words_node]
      simp
    · rw [node_at_insert_at_ne _ _ _ _ hx]
      simp [hx]

/-- The pairs of child indices and record that a sequence of insertions stores. -/
theorem trie_inserts_eq (t : trie) (ins : List (List Int × List Int))
    (hins : ∀ ps ∈ ins, ∀ c ∈ trie_path ps.1, 97 ≤ c ∧ c ≤ 122) :
    trie_inserts t ins
      = some ((ins.map (fun ps => ((trie_path ps.1).map letter_index, word_new ps.2))).foldl
          (fun st x => insert_at st x.1 x.2) t) := by
  induction ins generalizing t with
  | nil => rfl
  | cons ps ins ih =>
    rw [trie_inserts, trie_insert_eq t ps.1 ps.2 (hins ps (List.mem_cons_self _ _))]
    exact ih _ (fun qs hqs => hins qs (List.mem_cons_of_mem _ hqs))

theorem trie_find_of_lower (t : trie) {p : List Int} (h : ∀ c ∈ p, 97 ≤ c ∧ c ≤ 122) :
    trie_find t p = some (node_at t (p.map letter_index)) := by
  have hp := trie_path_of_lower h
  have := trie_find_eq t p (hp.symm ▸ h)
  rw [hp] at this
  exact this

theorem exists_prefix_map_iff (ins : List (List Int × List Int))
    (hins : ∀ ps ∈ ins, ∀ c ∈ trie_path ps.1, 97 ≤ c ∧ c ≤ 122)
    {p : List Int} (hp : ∀ c ∈ p, 97 ≤ c ∧ c ≤ 122) :
    (∃ x ∈ ins.map (fun ps => ((trie_path ps.1).map letter_index, word_new ps.2)),
        p.map letter_index <+: x.1) ↔ ∃ ps ∈ ins, p <+: trie_path ps.1 := by
  constructor
  · rintro ⟨x, hx, hpre⟩
    obtain ⟨ps, hps, rfl⟩ := List.mem_map.1 hx
    exact ⟨ps, hps, (map_letter_index_pre_iff hp (hins ps hps)).1 hpre⟩
  · rintro ⟨ps, hps, hpre⟩
    exact ⟨_, List.mem_map.2 ⟨ps, hps, rfl⟩, (map_letter_index_pre_iff hp (hins ps hps)).2 hpre⟩

/-- C12: for every sequence of `trie_insert` calls on normalised keys from the
empty (`NULL`) index, the calls return a trie `t` such that for every path `p`
of lowercase letters the node looked up at `p` is present if and only if `p` is
a prefix of the signature (the letters of the key) of some inserted word; the
root is present if and only if at least one insertion happened; and one more
insertion on any trie makes present, besides the nodes that were, exactly those
on the path of the inserted signature. -/
theorem node_exists_iff_on_path (ins : List (List Int × List Int))
    (hins : ∀ ps ∈ ins, ∀ c ∈ trie_path ps.1, 97 ≤ c ∧ c ≤ 122) :
    (∃ t, trie_inserts .NULL ins = some t ∧
      (∀ p : List Int, (∀ c ∈ p, 97 ≤ c ∧ c ≤ 122) →
        ∃ n, trie_find t p = some n ∧
          (n.present = true ↔ ∃ ps ∈ ins, p <+: trie_path ps.1)) ∧
      (t.present = true ↔ ins ≠ [])) ∧
    ∀ (t0 : trie) (k s p : List Int), (∀ c ∈ trie_path k, 97 ≤ c ∧ c ≤ 122) →
      (∀ c ∈ p, 97 ≤ c ∧ c ≤ 122) →
      ∃ t1 n0 n1, trie_insert t0 k s = some t1 ∧ trie_find t0 p = some n0 ∧
        trie_find t1 p = some n1 ∧
        (n1.present = true ↔ n0.present = true ∨ p <+: trie_path k) := by
  refine ⟨⟨_, trie_inserts_eq .NULL ins hins, ?_, ?_⟩, ?_⟩
  · intro p hp
    refine ⟨_, trie_find_of_lower _ hp, ?_⟩
    rw [present_foldl, node_at_NULL, exists_prefix_map_iff ins hins hp]
    simp [trie.present]
  · have h := present_foldl .NULL
      (ins.map (fun ps => ((trie_path ps.1).map letter_index, word_new ps.2))) []
    rw [node_at] at h
    rw [h]
    cases ins with
    | nil => simp [node_at, trie.present]
    | cons ps ins => simp
  · intro t0 k s p hk hp
    refine ⟨_, _, _, trie_insert_eq t0 k s hk, trie_find_of_lower t0 hp,
      trie_find_of_lower _ hp, ?_⟩
    rw [present_insert_at, map_letter_index_pre_iff hp hk]

/-- Witness of C12: the keys `ab` and `c` inserted into the empty index. -/
theorem node_exists_iff_on_path_witness :
    (∀ ps ∈ [(lit "ab", lit "ba"), (lit "c", lit "C")],
      ∀ c ∈ trie_path ps.1, 97 ≤ c ∧ c ≤ 122) ∧
    ∃ t, trie_inserts .NULL [(lit "ab", lit "ba"), (lit "c", lit "C")] = some t ∧
      (∀ p : List Int, (∀ c ∈ p, 97 ≤ c ∧ c ≤ 122) →
        ∃ n, trie_find t p = some n ∧
          (n.present = true ↔
            ∃ ps ∈ [(lit "ab", lit "ba"), (lit "c", lit "C")], p <+: trie_path ps.1)) ∧
      (t.present = true ↔ [(lit "ab", lit "ba"), (lit "c", lit "C")] ≠ []) :=
  ⟨by decide, (node_exists_iff_on_path [(lit "ab", lit "ba"), (lit "c", lit "C")] (by decide)).1⟩

/-- C13: in every trie built from the empty index by `trie_insert` calls on
normalised keys, the lookup of a signature that is a prefix of the signature of
some inserted word and is the signature of no inserted word returns a present
node whose own bucket is empty, and the lookup of the key of any inserted word
returns a present node whose bucket is not empty and holds the record of that
word. -/
theorem routing_and_terminal_nodes (ins : List (List Int × List Int))
    (hins : ∀ ps ∈ ins, ∀ c ∈ trie_path ps.1, 97 ≤ c ∧ c ≤ 122) :
    ∃ t, trie_inserts .NULL ins = some t ∧
      (∀ p : List Int, (∀ c ∈ p, 97 ≤ c ∧ c ≤ 122) →
        (∃ ps ∈ ins, p <+: trie_path ps.1) → (∀ ps ∈ ins, trie_path ps.1 ≠ p) →
        ∃ n, trie_find t p = some n ∧ n.present = true ∧ n.words = []) ∧
      (∀ ps ∈ ins, ∃ n, trie_find t ps.1 = some n ∧ n.present = true ∧
        n.words ≠ [] ∧ word_new ps.2 ∈ n.words) := by
  refine ⟨_, trie_inserts_eq .NULL ins hins, ?_, ?_⟩
  · intro p hp hpre hne
    refine ⟨_, trie_find_of_lower _ hp, ?_, ?_⟩
    · rw [present_foldl, exists_prefix_map_iff ins hins hp]
      exact Or.inr hpre
    · rw [words_foldl, node_at_NULL]
      have hf : (ins.map (fun ps => ((trie_path ps.1).map letter_index, word_new ps.2))).filter
          (fun x => decide (x.1 = p.map letter_index)) = [] := by
        apply List.filter_eq_nil_iff.2
        intro x hx
        obtain ⟨ps, hps, rfl⟩ := List.mem_map.1 hx
        rw [decide_eq_true_eq]
        exact fun h => hne ps hps (map_letter_index_inj (hins ps hps) hp h)
      rw [hf]
      rfl
  · intro ps hps
    have hmem : word_new ps.2 ∈ (node_at ((ins.map (fun ps =>
        ((trie_path ps.1).map letter_index, word_new ps.2))).foldl
          (fun st x => insert_at st x.1 x.2) .NULL) ((trie_path ps.1).map letter_index)).words := by
      rw [words_foldl]
      apply List.mem_append_left
      rw [List.mem_map]
      refine ⟨((trie_path ps.1).map letter_index, word_new ps.2), ?_, rfl⟩
      rw [List.mem_reverse, List.mem_filter]
      exact ⟨List.mem_map.2 ⟨ps, hps, rfl⟩, by simp⟩
    refine ⟨_, trie_find_eq _ ps.1 (hins ps hps), ?_, List.ne_nil_of_mem hmem, hmem⟩
    rw [present_foldl]
    exact Or.inr ⟨_, List.mem_map.2 ⟨ps, hps, rfl⟩, List.prefix_refl _⟩

/-- Witness of C13: after `eilnst` (for `listen`) is inserted, the lookup of
`eil` returns a present node with an empty bucket. -/
theorem routing_and_terminal_nodes_witness :
    (∀ ps ∈ [(lit "eilnst", lit "listen")], ∀ c ∈ trie_path ps.1, 97 ≤ c ∧ c ≤ 122) ∧
    ∃ t n, trie_inserts .NULL [(lit "eilnst", lit "listen")] = some t ∧
      trie_find t (lit "eil") = some n ∧ n.present = true ∧ n.words = [] := by
  obtain ⟨t, ht, hroute, -⟩ :=
    routing_and_terminal_nodes [(lit "eilnst", lit "listen")] (by decide)
  obtain ⟨n, hn, hp, hw⟩ := hroute (lit "eil") (by decide) (by decide) (by decide)
  exact ⟨by decide, t, n, ht, hn, hp, hw⟩

/-- C16: for every trie `t`, every normalised key `k1` with display word `w` and
every normalised key `k2`: the bucket found for `k2` after
`trie_insert(t, k1, w)` is the bucket found for `k2` in `t` (empty for an
absent node) when the signature of `k2` differs from that of `k1`, and that
bucket with the record of `w` in front when the signatures are the same; in
both cases the old bucket is kept whole and in order at the end of the new one. -/
theorem insertion_frame (t : trie) (k1 w k2 : List Int)
    (hk1 : ∀ c ∈ trie_path k1, 97 ≤ c ∧ c ≤ 122)
    (hk2 : ∀ c ∈ trie_path k2, 97 ≤ c ∧ c ≤ 122) :
    ∃ t1 n0 n1, trie_insert t k1 w = some t1 ∧ trie_find t k2 = some n0 ∧
      trie_find t1 k2 = some n1 ∧
      (trie_path k2 ≠ trie_path k1 → n1.words = n0.words) ∧
      (trie_path k2 = trie_path k1 → n1.words = word_new w :: n0.words) ∧
      n0.words <:+ n1.words := by
  refine ⟨_, _, _, trie_insert_eq t k1 w hk1, trie_find_eq t k2 hk2, trie_find_eq _ k2 hk2,
    ?_, ?_, ?_⟩
  · intro hne
    exact node_at_insert_at_ne _ _ _ _ (fun h => hne (map_letter_index_inj hk2 hk1 h.symm))
  · intro heq
    rw [heq, node_at_insert_at_same, words_node]
  · by_cases heq : trie_path k2 = trie_path k1
    · rw [heq, node_at_insert_at_same, words_node]
      exact List.suffix_cons _ _
    · rw [node_at_insert_at_ne _ _ _ _ (fun h => heq (map_letter_index_inj hk2 hk1 h.symm))]

/-- Witness of C16: inserting under the key `act` leaves the bucket of `dgo` as it was. -/
theorem insertion_frame_witness :
    (∀ c ∈ trie_path (lit "act"), 97 ≤ c ∧ c ≤ 122) ∧
    (∀ c ∈ trie_path (lit "dgo"), 97 ≤ c ∧ c ≤ 122) ∧
    trie_path (lit "dgo") ≠ trie_path (lit "act") ∧
    ∃ t1 n0 n1, trie_insert trie_new (lit "act") (lit "cat") = some t1 ∧
      trie_find trie_new (lit "dgo") = some n0 ∧ trie_find t1 (lit "dgo") = some n1 ∧
      n1.words = n0.words := by
  obtain ⟨t1, n0, n1, h1, h2, h3, hne, -, -⟩ :=
    insertion_frame trie_new (lit "act") (lit "cat") (lit "dgo") (by decide) (by decide)
  exact ⟨by decide, by decide, by decide, t1, n0, n1, h1, h2, h3, hne (by decide)⟩

/-! ## Conservation of the records -/

theorem flatten_map_perm_of_update {α : Type} (f g : Fin ALPHA_SIZE → List α)
    (i : Fin ALPHA_SIZE) (w : α) (hi : (g i).Perm (w :: f i)) (hne : ∀ j, j ≠ i → g j = f j) :
    ∀ l : List (Fin ALPHA_SIZE), l.Nodup → i ∈ l →
      ((l.map g).flatten).Perm (w :: (l.map f).flatten) := by
  intro l
  induction l with
  | nil => intro _ h; simp at h
  | cons a l ih =>
    intro hnd hmem
    rw [List.nodup_cons] at hnd
    simp only [List.map_cons, List.flatten_cons]
    by_cases ha : a = i
    · subst ha
      have hl : l.map g = l.map f :=
        List.map_congr_left (fun j hj => hne j (fun h => hnd.1 (h ▸ hj)))
      rw [hl]
      exact (hi.append_right _)
    · have hmem1 : i ∈ l := by
        rcases List.mem_cons.1 hmem with h | h
        · exact absurd h.symm ha
        · exact h
      rw [hne a ha]
      exact ((ih hnd.2 hmem1).append_left (f a)).trans List.perm_middle

theorem trie_free_node (ws : List word) (ch : Fin ALPHA_SIZE → trie) :
    trie_free (.node ws ch)
      = ((List.finRange ALPHA_SIZE).map (fun i => trie_free (ch i))).flatten ++ ws := rfl

theorem trie_alloc_eq_node (t : trie) :
    trie_alloc t = .node (trie_alloc t).words (trie_alloc t).child := by
  cases t <;> rfl

theorem trie_free_alloc (t : trie) : trie_free (trie_alloc t) = trie_free t := by
  cases t with
  | NULL => rfl
  | node ws ch => rfl

theorem trie_free_insert_at (t : trie) (cs : List (Fin ALPHA_SIZE)) (w : word) :
    (trie_free (insert_at t cs w)).Perm (w :: trie_free t) := by
  induction cs generalizing t with
  | nil =>
    rw [insert_at, trie_free_node, ← trie_free_alloc t, trie_alloc_eq_node t, trie_free_node]
    simp only [child_node, words_node]
    exact List.perm_middle
  | cons i cs ih =>
    rw [insert_at, trie_free_node, ← trie_free_alloc t, trie_alloc_eq_node t, trie_free_node]
    simp only [child_node, words_node]
    rw [← List.cons_append]
    apply List.Perm.append_right
    apply flatten_map_perm_of_update (fun j => trie_free ((trie_alloc t).child j)) _ i w
    · simp only [Function.update_same]
      exact ih _
    · intro j hj
      simp only [Function.update_noteq hj]
    · exact List.nodup_finRange _
    · exact List.mem_finRange _

theorem trie_free_foldl (t : trie) (l : List (List (Fin ALPHA_SIZE) × word)) :
    (trie_free (l.foldl (fun st x => insert_at st x.1 x.2) t)).Perm
      (l.map (fun x => x.2) ++ trie_free t) := by
  induction l generalizing t with
  | nil => exact List.Perm.refl _
  | cons x l ih =>
    rw [List.foldl_cons, List.map_cons, List.cons_append]
    exact (ih _).trans (((trie_free_insert_at t x.1 x.2).append_left _).trans List.perm_middle)

/-- C17: every sequence of `n` calls of `trie_insert` on normalised keys from
the empty index returns a trie whose nodes hold `n` records in all, a
rearrangement of the records of the inserted display words; when these have at
most 127 characters the strings stored are, up to order, the display words
inserted, each record being a terminated string. -/
theorem words_conserved (ins : List (List Int × List Int))
    (hins : ∀ ps ∈ ins, ∀ c ∈ trie_path ps.1, 97 ≤ c ∧ c ≤ 122)
    (hfit : ∀ ps ∈ ins, (cstr ps.2).length < MAX_STR) :
    ∃ t, trie_inserts .NULL ins = some t ∧
      (trie_free t).length = ins.length ∧
      (trie_free t).Perm (ins.map (fun ps => word_new ps.2)) ∧
      ((trie_free t).map cstr).Perm (ins.map (fun ps => cstr ps.2)) ∧
      ∀ r ∈ trie_free t, (0 : Int) ∈ r := by
  have hperm : (trie_free ((ins.map (fun ps =>
      ((trie_path ps.1).map letter_index, word_new ps.2))).foldl
        (fun st x => insert_at st x.1 x.2) .NULL)).Perm (ins.map (fun ps => word_new ps.2)) := by
    have h := trie_free_foldl .NULL
      (ins.map (fun ps => ((trie_path ps.1).map letter_index, word_new ps.2)))
    rw [List.map_map] at h
    simpa [trie_free, Function.comp_def] using h
  refine ⟨_, trie_inserts_eq .NULL ins hins, ?_, hperm, ?_, ?_⟩
  · rw [hperm.length_eq, List.length_map]
  · have h := hperm.map cstr
    rw [List.map_map] at h
    have hc : ins.map (cstr ∘ fun ps => word_new ps.2) = ins.map (fun ps => cstr ps.2) :=
      List.map_congr_left (fun ps hps => cstr_word_new (hfit ps hps))
    rw [hc] at h
    exact h
  · intro r hr
    obtain ⟨ps, hps, rfl⟩ := List.mem_map.1 (hperm.mem_iff.1 hr)
    exact zero_mem_word_new (hfit ps hps)

/-- Witness of C17: `listen`, `silent` and `banana` inserted under their keys. -/
theorem words_conserved_witness :
    (∀ ps ∈ [(lit "eilnst", lit "listen"), (lit "eilnst", lit "silent"),
        (lit "aaabnn", lit "banana")], ∀ c ∈ trie_path ps.1, 97 ≤ c ∧ c ≤ 122) ∧
    (∀ ps ∈ [(lit "eilnst", lit "listen"), (lit "eilnst", lit "silent"),
        (lit "aaabnn", lit "banana")], (cstr ps.2).length < MAX_STR) ∧
    ∃ t, trie_inserts .NULL [(lit "eilnst", lit "listen"), (lit "eilnst", lit "silent"),
        (lit "aaabnn", lit "banana")] = some t ∧
      (trie_free t).length = 3 ∧
      ((trie_free t).map cstr).Perm [lit "listen", lit "silent", lit "banana"] := by
  obtain ⟨t, ht, hlen, -, hstr, -⟩ :=
    words_conserved [(lit "eilnst", lit "listen"), (lit "eilnst", lit "silent"),
      (lit "aaabnn", lit "banana")] (by decide) (by decide)
  exact ⟨by decide, by decide, t, ht, hlen, hstr⟩

/-! ## Bounded recursion -/

theorem trie_path_eq_filter (p : List Int) : trie_path p = (cstr p).filter isalpha := by
  induction p with
  | nil => rfl
  | cons c p ih =>
    by_cases hc : c = 0
    · subst hc
      simp [trie_path, cstr_cons_zero]
    · by_cases ha : isalpha c = true
      · simp [trie_path, hc, ha, ih, cstr_cons_ne hc]
      · simp only [Bool.not_eq_true] at ha
        simp [trie_path, hc, ha, ih, cstr_cons_ne hc]

theorem trie_insert_calls_le (t : trie) (p : List Int) :
    trie_insert_calls t p ≤ (trie_path p).length + 1 := by
  induction p generalizing t with
  | nil => simp [trie_insert_calls]
  | cons c p ih =>
    rw [trie_insert_calls, trie_path]
    by_cases hskip : c ≠ 0 ∧ isalpha c = false
    · rw [if_pos hskip, if_pos hskip]
      exact ih t
    · rw [if_neg hskip, if_neg hskip]
      by_cases hc : c ≠ 0
      · rw [if_pos hc, if_pos hc]
        cases child_index (c - 97) with
        | none => simp
        | some code =>
          have := ih ((trie_alloc t).child code)
          simp only [List.length_cons]
          omega
      · rw [if_neg hc, if_neg hc]
        simp

theorem trie_find_calls_le (t : trie) (p : List Int) :
    trie_find_calls t p ≤ (trie_path p).length + 1 := by
  induction p generalizing t with
  | nil => cases t <;> simp [trie_find_calls]
  | cons c p ih =>
    cases t with
    | NULL => simp [trie_find_calls]
    | node ws ch =>
      rw [trie_find_calls, trie_path]
      by_cases hskip : c ≠ 0 ∧ isalpha c = false
      · rw [if_pos hskip, if_pos hskip]
        exact ih _
      · rw [if_neg hskip, if_neg hskip]
        by_cases hc : c ≠ 0
        · rw [if_pos hc, if_pos hc]
          cases child_index (c - 97) with
          | none => simp
          | some code =>
            have := ih (ch code)
            simp only [List.length_cons]
            omega
        · rw [if_neg hc, if_neg hc]
          simp

theorem key_path_length (s : List Int) :
    (trie_path (sort (lowerstrncpy s MAX_STR))).length ≤ MAX_STR - 1 := by
  rw [trie_path_eq_filter]
  have h1 : ((cstr (sort (lowerstrncpy s MAX_STR))).filter isalpha).length
      ≤ (cstr (sort (lowerstrncpy s MAX_STR))).length := List.length_filter_le _ _
  have h2 : (cstr (sort (lowerstrncpy s MAX_STR))).length
      ≤ (sort (lowerstrncpy s MAX_STR)).length := (List.takeWhile_prefix _).length_le
  have h3 : (sort (lowerstrncpy s MAX_STR)).length = (cstr (lowerstrncpy s MAX_STR)).length :=
    (List.perm_insertionSort _ _).length_eq
  have h4 : (cstr (lowerstrncpy s MAX_STR)).length ≤ (lowerstrncpy s MAX_STR).length :=
    (List.takeWhile_prefix _).length_le
  have h5 : (lowerstrncpy s MAX_STR).length ≤ MAX_STR - 1 := by
    rw [lowerstrncpy_MAX_STR, List.length_map, List.length_take]
    exact Nat.min_le_left _ _
  omega

theorem foldr_max_le {l : List Nat} {d : Nat} (h : ∀ x ∈ l, x ≤ d) : l.foldr max 0 ≤ d := by
  induction l with
  | nil => exact Nat.zero_le _
  | cons a l ih =>
    rw [List.foldr_cons]
    exact Nat.max_le.2 ⟨h a (List.mem_cons_self _ _),
      ih (fun x hx => h x (List.mem_cons_of_mem _ hx))⟩

theorem trie_free_depth_le (t : trie) (d : Nat)
    (h : ∀ cs, (node_at t cs).present = true → cs.length < d) : trie_free_depth t ≤ d + 1 := by
  induction t generalizing d with
  | NULL => simp [trie_free_depth]
  | node ws ch ih =>
    have hd : 0 < d := h [] rfl
    have hch : ∀ x ∈ (List.finRange ALPHA_SIZE).map (fun i => trie_free_depth (ch i)),
        x ≤ d := by
      intro x hx
      obtain ⟨i, -, rfl⟩ := List.mem_map.1 hx
      have hi := ih i (d - 1) (fun cs hcs => by
        have := h (i :: cs) hcs
        simp only [List.length_cons] at this
        omega)
      omega
    have := foldr_max_le hch
    rw [trie_free_depth]
    omega

theorem present_load_lines {bufs : List (List Int)} {st : trie}
    (hst : load_lines .NULL bufs = some st) (cs : List (Fin ALPHA_SIZE))
    (hp : (node_at st cs).present = true) : cs.length ≤ MAX_STR - 1 := by
  rw [load_lines_eq] at hst
  cases hst
  have h := present_foldl .NULL (bufs.map (fun b => (key_codes b, word_new b))) cs
  rw [List.foldl_map] at h
  rw [h, node_at_NULL] at hp
  rcases hp with hp | ⟨x, hx, hpre⟩
  · simp [trie.present] at hp
  · obtain ⟨b, -, rfl⟩ := List.mem_map.1 hx
    have h1 := hpre.length_le
    have h2 : (key_codes b).length ≤ MAX_STR - 1 := by
      unfold key_codes
      rw [List.length_map]
      exact key_path_length b
    exact Nat.le_trans h1 h2

/-- C19: for every key `p`, `trie_insert` and `trie_find` (total functions)
make, on every trie, at most one call per alphabetic character of `p` plus
one; on the key the loader or the query computes that is at most `MAX_STR`
calls; and in every trie the loader builds a present node lies at depth at most
`MAX_STR - 1 = 127`, so that the recursion of `trie_free` is at most
`MAX_STR + 1` calls deep, the call on a `NULL` child counted. -/
theorem recursion_bounded (p : List Int) :
    (∀ t : trie, trie_insert_calls t p ≤ ((cstr p).filter isalpha).length + 1) ∧
    (∀ t : trie, trie_find_calls t p ≤ ((cstr p).filter isalpha).length + 1) ∧
    (∀ (t : trie) (s : List Int),
      trie_insert_calls t (sort (lowerstrncpy s MAX_STR)) ≤ MAX_STR ∧
      trie_find_calls t (sort (lowerstrncpy s MAX_STR)) ≤ MAX_STR) ∧
    ∀ (bufs : List (List Int)) (st : trie), load_lines .NULL bufs = some st →
      (∀ cs, (node_at st cs).present = true → cs.length ≤ MAX_STR - 1) ∧
      trie_free_depth st ≤ MAX_STR + 1 := by
  refine ⟨fun t => ?_, fun t => ?_, fun t s => ⟨?_, ?_⟩, fun bufs st hst => ⟨?_, ?_⟩⟩
  · rw [← trie_path_eq_filter]
    exact trie_insert_calls_le t p
  · rw [← trie_path_eq_filter]
    exact trie_find_calls_le t p
  · have h1 := trie_insert_calls_le t (sort (lowerstrncpy s MAX_STR))
    have h2 := key_path_length s
    unfold MAX_STR at *
    omega
  · have h1 := trie_find_calls_le t (sort (lowerstrncpy s MAX_STR))
    have h2 := key_path_length s
    unfold MAX_STR at *
    omega
  · exact present_load_lines hst
  · apply trie_free_depth_le
    intro cs hcs
    have := present_load_lines hst cs hcs
    unfold MAX_STR at *
    omega

/-- Witness of C19: the trie built from `listen` and `banana` is released by a
recursion of `trie_free` at most `MAX_STR + 1` calls deep. -/
theorem recursion_bounded_witness :
    ∃ st, load_lines .NULL [lit "listen", lit "banana"] = some st ∧
      trie_free_depth st ≤ MAX_STR + 1 ∧
      trie_insert_calls st (lit "a-b") ≤ 3 ∧ trie_find_calls st (lit "a-b") ≤ 3 := by
  obtain ⟨hi, hf, -, hbuilt⟩ := recursion_bounded (lit "a-b")
  exact ⟨_, load_lines_eq .NULL _, (hbuilt _ _ (load_lines_eq .NULL _)).2, hi _, hf _⟩

/-! ## The read loop of `load_dictionary` -/

theorem load_loop_eof (r buf : List Int) (st : trie) :
    load_loop { rest := r, eof := true } buf st = some st := by
  rw [load_loop]
  rfl

theorem load_loop_step (r buf : List Int) (st : trie) :
    load_loop { rest := r, eof := false } buf st
      = (load_line st (fgets buf MAX_STR { rest := r, eof := false }).1).bind
          (fun st1 => load_loop (fgets buf MAX_STR { rest := r, eof := false }).2
            (fgets buf MAX_STR { rest := r, eof := false }).1 st1) := by
  rw [load_loop]
  simp only [Bool.false_eq_true, if_false]
  cases load_line st (fgets buf MAX_STR { rest := r, eof := false }).1 <;> rfl

/-- At the end of the file `fgets` reads nothing and leaves the buffer as it
was: the loop body runs once more on the stale content, then the loop stops. -/
theorem load_loop_at_end (buf : List Int) (st : trie) :
    load_loop { rest := [], eof := false } buf st = load_line st buf := by
  have hf : fgets buf MAX_STR { rest := [], eof := false } = (buf, { rest := [], eof := true }) :=
    rfl
  rw [load_loop_step, hf]
  cases load_line st buf with
  | none => rfl
  | some st1 => exact load_loop_eof _ _ _

/-- C14, at the failing input: on the source made of the one line `listen`
ended by a newline, the read loop of `load_dictionary` runs its body twice,
on `listen\n` as read and again on the same content left in `buf` when `fgets`
meets the end of the file, so the line is inserted twice; on the empty source
it runs the body once, on what `buf` happened to hold; on the same line
without its newline it runs the body once. -/
theorem load_dictionary_reinserts_last_line (buf0 : List Int) (st : trie) :
    load_dictionary (lit "listen\n") buf0 st
      = load_lines st [lit "listen\n", lit "listen\n"] ∧
    ((load_dictionary (lit "listen\n") buf0 .NULL).bind (fun t =>
        trie_find t (sort (lowerstrncpy (lit "listen") MAX_STR)))).map
        (fun n => n.words.map cstr) = some [lit "listen\n", lit "listen\n"] ∧
    load_dictionary [] buf0 st = load_lines st [buf0] ∧
    load_dictionary (lit "listen") buf0 st = load_lines st [lit "listen"] := by
  have hf1 : fgets buf0 MAX_STR { rest := lit "listen\n", eof := false }
      = (lit "listen\n", { rest := [], eof := false }) := rfl
  have hf2 : fgets buf0 MAX_STR { rest := lit "listen", eof := false }
      = (lit "listen", { rest := [], eof := true }) := rfl
  have h1 : ∀ st0 : trie, load_dictionary (lit "listen\n") buf0 st0
      = load_lines st0 [lit "listen\n", lit "listen\n"] := by
    intro st0
    unfold load_dictionary
    rw [load_loop_step, hf1]
    simp only [load_lines]
    cases load_line st0 (lit "listen\n") with
    | none => rfl
    | some st1 =>
      simp only [Option.some_bind]
      rw [load_loop_at_end]
      cases load_line st1 (lit "listen\n") <;> rfl
  refine ⟨h1 st, ?_, ?_, ?_⟩
  · rw [h1]
    decide
  · unfold load_dictionary
    rw [load_loop_at_end]
    simp only [load_lines]
    cases load_line st buf0 <;> rfl
  · unfold load_dictionary
    rw [load_loop_step, hf2]
    simp only [load_lines]
    cases load_line st (lit "listen") with
    | none => rfl
    | some st1 => exact load_loop_eof _ _ _

theorem load_loop_read {r buf line r1 : List Int} {e : Bool} (st : trie)
    (h : fgets buf MAX_STR { rest := r, eof := false } = (line, { rest := r1, eof := e })) :
    load_loop { rest := r, eof := false } buf st
      = (load_line st line).bind (fun st1 => load_loop { rest := r1, eof := e } line st1) := by
  rw [load_loop_step, h]

/-- What the read loop of `load_dictionary` hands to its body on the dictionary
of the four lines `listen`, `silent`, `enlist`, `banana`: each line with its
newline, as `fgets` stores it; when the file ends with a newline the last
buffer is handed over once more. -/
theorem load_dictionary_four_lines (buf0 : List Int) (st : trie) :
    load_dictionary (lit "listen\nsilent\nenlist\nbanana\n") buf0 st
      = load_lines st [lit "listen\n", lit "silent\n", lit "enlist\n", lit "banana\n",
          lit "banana\n"] ∧
    load_dictionary (lit "listen\nsilent\nenlist\nbanana") buf0 st
      = load_lines st [lit "listen\n", lit "silent\n", lit "enlist\n", lit "banana"] := by
  have ha1 : fgets buf0 MAX_STR { rest := lit "listen\nsilent\nenlist\nbanana\n", eof := false }
      = (lit "listen\n", { rest := lit "silent\nenlist\nbanana\n", eof := false }) := rfl
  have ha2 : fgets (lit "listen\n") MAX_STR { rest := lit "silent\nenlist\nbanana\n", eof := false }
      = (lit "silent\n", { rest := lit "enlist\nbanana\n", eof := false }) := rfl
  have ha3 : fgets (lit "silent\n") MAX_STR { rest := lit "enlist\nbanana\n", eof := false }
      = (lit "enlist\n", { rest := lit "banana\n", eof := false }) := rfl
  have ha4 : fgets (lit "enlist\n") MAX_STR { rest := lit "banana\n", eof := false }
      = (lit "banana\n", { rest := [], eof := false }) := rfl
  have hb1 : fgets buf0 MAX_STR { rest := lit "listen\nsilent\nenlist\nbanana", eof := false }
      = (lit "listen\n", { rest := lit "silent\nenlist\nbanana", eof := false }) := rfl
  have hb2 : fgets (lit "listen\n") MAX_STR { rest := lit "silent\nenlist\nbanana", eof := false }
      = (lit "silent\n", { rest := lit "enlist\nbanana", eof := false }) := rfl
  have hb3 : fgets (lit "silent\n") MAX_STR { rest := lit "enlist\nbanana", eof := false }
      = (lit "enlist\n", { rest := lit "banana", eof := false }) := rfl
  have hb4 : fgets (lit "enlist\n") MAX_STR { rest := lit "banana", eof := false }
      = (lit "banana", { rest := [], eof := true }) := rfl
  constructor
  · unfold load_dictionary
    rw [load_loop_read st ha1, load_line_eq, Option.some_bind,
      load_loop_read _ ha2, load_line_eq, Option.some_bind,
      load_loop_read _ ha3, load_line_eq, Option.some_bind,
      load_loop_read _ ha4, load_line_eq, Option.some_bind,
      load_loop_at_end, load_line_eq, load_lines_eq]
    rfl
  · unfold load_dictionary
    rw [load_loop_read st hb1, load_line_eq, Option.some_bind,
      load_loop_read _ hb2, load_line_eq, Option.some_bind,
      load_loop_read _ hb3, load_line_eq, Option.some_bind,
      load_loop_read _ hb4, load_line_eq, Option.some_bind,
      load_loop_eof, load_lines_eq]
    rfl

/-- C9 (amended): after `load_dictionary` has read, from the empty index, the
dictionary file of the lines `listen`, `silent`, `enlist`, `banana` in that
order (its last line ended by a newline or not), the entries found for the
query `tinsel` are `enlist`, `silent`, `listen` in that order (reverse
insertion order), each as `fgets` stored it, with the newline of its line; so
`print_anagrams` writes the header `Anagrams of tinsel:` and then, for each
entry, the tab-indented entry followed by an empty line; for the query `xyz` it
writes the header only. -/
theorem end_to_end_example (buf0 : List Int) :
    (load_dictionary (lit "listen\nsilent\nenlist\nbanana\n") buf0 .NULL).bind
        (fun st => print_anagrams st (lit "tinsel"))
      = some (lit "Anagrams of tinsel:\n\tenlist\n\n\tsilent\n\n\tlisten\n\n") ∧
    ((load_dictionary (lit "listen\nsilent\nenlist\nbanana\n") buf0 .NULL).bind
        (fun st => trie_find st (sort (lowerstrncpy (lit "tinsel") MAX_STR)))).map
        (fun n => n.words.map cstr)
      = some [lit "enlist\n", lit "silent\n", lit "listen\n"] ∧
    (load_dictionary (lit "listen\nsilent\nenlist\nbanana\n") buf0 .NULL).bind
        (fun st => print_anagrams st (lit "xyz"))
      = some (lit "Anagrams of xyz:\n") ∧
    (load_dictionary (lit "listen\nsilent\nenlist\nbanana") buf0 .NULL).bind
        (fun st => print_anagrams st (lit "tinsel"))
      = some (lit "Anagrams of tinsel:\n\tenlist\n\n\tsilent\n\n\tlisten\n\n") ∧
    (load_dictionary (lit "listen\nsilent\nenlist\nbanana") buf0 .NULL).bind
        (fun st => print_anagrams st (lit "xyz"))
      = some (lit "Anagrams of xyz:\n") := by
  rw [(load_dictionary_four_lines buf0 .NULL).1, (load_dictionary_four_lines buf0 .NULL).2]
  decide

/-- C9 as stated fails on the dictionary file of the four lines: what
`print_anagrams` writes for `tinsel` after `load_dictionary` has read the file
is not the header followed by the three lines `enlist`, `silent`, `listen`; the
entries stored are `enlist`, `silent`, `listen` each with its newline, and an
empty line follows each of them in the output. -/
theorem end_to_end_output_keeps_newlines :
    (load_dictionary (lit "listen\nsilent\nenlist\nbanana\n") [] .NULL).bind
        (fun st => print_anagrams st (lit "tinsel"))
      ≠ some (lit "Anagrams of tinsel:\n\tenlist\n\tsilent\n\tlisten\n") ∧
    ((load_dictionary (lit "listen\nsilent\nenlist\nbanana\n") [] .NULL).bind
        (fun st => trie_find st (sort (lowerstrncpy (lit "tinsel") MAX_STR)))).map
        (fun n => n.words.map cstr)
      ≠ some [lit "enlist", lit "silent", lit "listen"] ∧
    (load_dictionary (lit "listen\nsilent\nenlist\nbanana\n") [] .NULL).bind
        (fun st => print_anagrams st (lit "tinsel"))
      = some (lit "Anagrams of tinsel:\n\tenlist\n\n\tsilent\n\n\tlisten\n\n") := by
  rw [(load_dictionary_four_lines [] .NULL).1]
  decide

end Anagram
